import Mathlib

/-!
Verification development for the document chunking/redaction/indexing pipeline
(`local_processor.py` and `medsearch.py`).

Texts are modelled as `List Char`.  Pure functions of the source are translated
directly; the external Azure services (document analysis, language annotation,
blob storage, search index) are modelled as oracles passed in as arguments.
-/

namespace ChunkingAgent

/-! ## Chunker

The repository configures `RecursiveCharacterTextSplitter(chunk_size=490,
chunk_overlap=88, length_function=len, separators=["\n\n\n","\n\n","\n"," ",""])`
from the external `langchain_text_splitters` package; the splitting algorithm
itself is not part of the repository's source.
-/

/-- `startsWith p l` is true when `p` is an initial segment of `l`. -/
def startsWith : List Char → List Char → Bool
  | [], _ => true
  | _ :: _, [] => false
  | a :: as, b :: bs => a == b && startsWith as bs

/-- Scan to the first occurrence of the separator, returning the piece up to and
including the separator, together with the remainder of the text. -/
def takeToSep (sep : List Char) : List Char → List Char × List Char
  | [] => ([], [])
  | c :: rest =>
    if sep ≠ [] ∧ startsWith sep (c :: rest) then
      (sep, (c :: rest).drop sep.length)
    else
      ((takeToSep sep rest).1.cons c, (takeToSep sep rest).2)

theorem startsWith_append (p l : List Char) (h : startsWith p l = true) :
    l = p ++ l.drop p.length := by
  induction p generalizing l with
  | nil => simp
  | cons a as ih =>
    cases l with
    | nil => simp [startsWith] at h
    | cons b bs =>
      simp only [startsWith, Bool.and_eq_true, beq_iff_eq] at h
      simpa [h.1] using ih bs h.2

theorem takeToSep_append (sep t : List Char) :
    (takeToSep sep t).1 ++ (takeToSep sep t).2 = t := by
  induction t with
  | nil => simp [takeToSep]
  | cons c rest ih =>
    by_cases h : sep ≠ [] ∧ startsWith sep (c :: rest)
    · simp only [takeToSep, if_pos h]
      exact (startsWith_append sep (c :: rest) h.2).symm
    · simp only [takeToSep, if_neg h, List.cons_append]
      simpa using ih

theorem takeToSep_fst_ne_nil (sep : List Char) (c : Char) (rest : List Char) :
    (takeToSep sep (c :: rest)).1 ≠ [] := by
  by_cases h : sep ≠ [] ∧ startsWith sep (c :: rest)
  · simp only [takeToSep, if_pos h]
    exact h.1
  · simp [takeToSep, if_neg h]

theorem takeToSep_snd_lt (sep : List Char) (c : Char) (rest : List Char) :
    (takeToSep sep (c :: rest)).2.length < (c :: rest).length := by
  have hj := takeToSep_append sep (c :: rest)
  have hne := takeToSep_fst_ne_nil sep c rest
  have : (takeToSep sep (c :: rest)).1.length + (takeToSep sep (c :: rest)).2.length
      = (c :: rest).length := by
    rw [← List.length_append, hj]
  have h1 : 0 < (takeToSep sep (c :: rest)).1.length := List.length_pos.mpr hne
  omega

/-- Split the text at every occurrence of the separator; the separator is kept
(attached to the end of the preceding piece) so that the pieces form a partition
of the text. -/
def splitOnSep (sep : List Char) (text : List Char) : List (List Char) :=
  match text with
  | [] => []
  | c :: rest =>
    (takeToSep sep (c :: rest)).1 :: splitOnSep sep (takeToSep sep (c :: rest)).2
termination_by text.length
decreasing_by
  exact takeToSep_snd_lt sep c rest

theorem splitOnSep_join (sep t : List Char) : (splitOnSep sep t).flatten = t := by
  induction t using splitOnSep.induct sep with
  | case1 => simp [splitOnSep]
  | case2 c rest ih =>
    rw [splitOnSep]
    simp only [List.flatten_cons]
    rw [ih, takeToSep_append]

theorem splitOnSep_ne_nil (sep t : List Char) :
    ∀ p ∈ splitOnSep sep t, p ≠ [] := by
  induction t using splitOnSep.induct sep with
  | case1 => simp [splitOnSep]
  | case2 c rest ih =>
    rw [splitOnSep]
    intro p hp
    rcases List.mem_cons.mp hp with h | h
    · subst h; exact takeToSep_fst_ne_nil sep c rest
    · exact ih p h

/-- Modelled from the spec: the recursive boundary-splitting phase of the
Chunker (§4.2), implementing the `RecursiveCharacterTextSplitter` from the
external `langchain_text_splitters` package, which is not part of this
repository's source.  A candidate unit of length at most `maxSize` is emitted;
a longer one is split on the next separator in priority order and the pieces
are split recursively; the empty-string separator at the end of the priority
list is the character-level fallback. -/
def splitRec (maxSize : Nat) : List (List Char) → List Char → List (List Char)
  | _, [] => []
  | [], c :: cs =>
    if (c :: cs).length ≤ maxSize then [c :: cs]
    else (c :: cs).map (fun x => [x])
  | sep :: rest, c :: cs =>
    if (c :: cs).length ≤ maxSize then [c :: cs]
    else (splitOnSep sep (c :: cs)).flatMap (fun piece => splitRec maxSize rest piece)

theorem join_map_singleton (l : List Char) :
    (l.map (fun x => [x])).flatten = l := by
  induction l with
  | nil => rfl
  | cons a as ih => simp [ih]

theorem flatten_flatMap_of_flatten_eq (f : List Char → List (List Char))
    (l : List (List Char)) (h : ∀ p ∈ l, (f p).flatten = p) :
    (l.flatMap f).flatten = l.flatten := by
  induction l with
  | nil => rfl
  | cons a as ih =>
    simp only [List.flatMap_cons, List.flatten_append, List.flatten_cons]
    rw [h a (List.mem_cons_self a as), ih fun p hp => h p (List.mem_cons_of_mem a hp)]

theorem splitRec_join (maxSize : Nat) (seps : List (List Char)) (t : List Char) :
    (splitRec maxSize seps t).flatten = t := by
  induction seps generalizing t with
  | nil =>
    cases t with
    | nil => rfl
    | cons c cs =>
      rw [splitRec]
      split
      · simp
      · exact join_map_singleton (c :: cs)
  | cons sep rest ih =>
    cases t with
    | nil => rfl
    | cons c cs =>
      rw [splitRec]
      split
      · simp
      · rw [flatten_flatMap_of_flatten_eq _ _ fun p _ => ih p]
        exact splitOnSep_join sep (c :: cs)

theorem splitRec_ne_nil (maxSize : Nat) (seps : List (List Char)) (t : List Char) :
    ∀ s ∈ splitRec maxSize seps t, s ≠ [] := by
  induction seps generalizing t with
  | nil =>
    cases t with
    | nil => simp [splitRec]
    | cons c cs =>
      rw [splitRec]
      split
      · simp
      · intro s hs
        rcases List.mem_map.mp hs with ⟨x, _, rfl⟩
        simp
  | cons sep rest ih =>
    cases t with
    | nil => simp [splitRec]
    | cons c cs =>
      rw [splitRec]
      split
      · simp
      · intro s hs
        rcases List.mem_flatMap.mp hs with ⟨p, _, hmem⟩
        exact ih p s hmem

theorem splitRec_length_le (maxSize : Nat) (hm : 1 ≤ maxSize)
    (seps : List (List Char)) (t : List Char) :
    ∀ s ∈ splitRec maxSize seps t, s.length ≤ maxSize := by
  induction seps generalizing t with
  | nil =>
    cases t with
    | nil => simp [splitRec]
    | cons c cs =>
      rw [splitRec]
      split
      · intro s hs
        rcases List.mem_singleton.mp hs with rfl
        assumption
      · intro s hs
        rcases List.mem_map.mp hs with ⟨x, _, rfl⟩
        simpa using hm
  | cons sep rest ih =>
    cases t with
    | nil => simp [splitRec]
    | cons c cs =>
      rw [splitRec]
      split
      · intro s hs
        rcases List.mem_singleton.mp hs with rfl
        assumption
      · intro s hs
        rcases List.mem_flatMap.mp hs with ⟨p, _, hmem⟩
        exact ih p s hmem

/-- Total character length of a list of splits. -/
def lenSum (l : List (List Char)) : Nat := (l.map List.length).sum

/-- Modelled from the spec: when a chunk is emitted, the trailing splits kept as
the overlap carried into the next chunk — the longest suffix of the pending
splits whose total length is at most `overlap` and which still leaves room for
the incoming split within `maxSize` (§4.2: "a trailing overlap of `overlap`
characters is carried from the end of each chunk into the start of the next"). -/
def shrinkKeep (maxSize overlap dlen : Nat) : List (List Char) → List (List Char)
  | [] => []
  | p :: rest =>
    if overlap < lenSum (p :: rest) ∨ maxSize < lenSum (p :: rest) + dlen then
      shrinkKeep maxSize overlap dlen rest
    else p :: rest

/-- Modelled from the spec: the merge phase of the Chunker (§4.2) — adjacent
splits are merged up to `maxSize`, and when a chunk is emitted a trailing
overlap is carried into the start of the next chunk.  `carry` holds the splits
duplicated from the previous chunk's tail (the overlap region) and `fresh` the
splits that are new in the current chunk; each emitted pair is
(overlap region, new content), so the chunk text is the concatenation of the
two components. -/
def mergeGo (maxSize overlap : Nat) :
    List (List Char) → List (List Char) → List (List Char) → List (List Char × List Char)
  | carry, fresh, [] =>
    if carry ++ fresh = [] then [] else [(carry.flatten, fresh.flatten)]
  | carry, fresh, d :: ds =>
    if maxSize < lenSum (carry ++ fresh) + d.length ∧ carry ++ fresh ≠ [] then
      (carry.flatten, fresh.flatten) ::
        mergeGo maxSize overlap (shrinkKeep maxSize overlap d.length (carry ++ fresh)) [d] ds
    else
      mergeGo maxSize overlap carry (fresh ++ [d]) ds

/-- The separator priority list configured in `local_processor.py`:
`"\n\n\n"`, `"\n\n"`, `"\n"`, `" "` (the final empty-string separator is the
character-level fallback of `splitRec`). -/
def sepList : List (List Char) :=
  [['\n', '\n', '\n'], ['\n', '\n'], ['\n'], [' ']]

/-- The Chunker as (overlap region, new content) pairs. -/
def chunkPairs (maxSize overlap : Nat) (text : List Char) : List (List Char × List Char) :=
  mergeGo maxSize overlap [] [] (splitRec maxSize sepList text)

/-- The Chunker: the texts of the produced chunks, in order. -/
def chunkTexts (maxSize overlap : Nat) (text : List Char) : List (List Char) :=
  (chunkPairs maxSize overlap text).map (fun p => p.1 ++ p.2)

theorem lenSum_append (l₁ l₂ : List (List Char)) :
    lenSum (l₁ ++ l₂) = lenSum l₁ + lenSum l₂ := by
  simp [lenSum]

theorem length_flatten_eq_lenSum (l : List (List Char)) :
    l.flatten.length = lenSum l := by
  induction l with
  | nil => rfl
  | cons a as ih => simp [lenSum, List.flatten_cons, ih]

theorem flatten_ne_nil_of_mem (l : List (List Char)) (hne : ∀ x ∈ l, x ≠ [])
    (h : l ≠ []) : l.flatten ≠ [] := by
  cases l with
  | nil => exact absurd rfl h
  | cons a as =>
    have ha : a ≠ [] := hne a (List.mem_cons_self a as)
    simp only [List.flatten_cons, ne_eq, List.append_eq_nil]
    intro hc
    exact ha hc.1

theorem shrinkKeep_suffix (m o dl : Nat) (l : List (List Char)) :
    shrinkKeep m o dl l <:+ l := by
  induction l with
  | nil => simp [shrinkKeep]
  | cons p rest ih =>
    rw [shrinkKeep]
    split
    · exact ih.trans (List.suffix_cons p rest)
    · exact List.suffix_refl _

theorem shrinkKeep_spec (m o dl : Nat) (l : List (List Char)) :
    shrinkKeep m o dl l = [] ∨
      (lenSum (shrinkKeep m o dl l) ≤ o ∧ lenSum (shrinkKeep m o dl l) + dl ≤ m) := by
  induction l with
  | nil => exact Or.inl rfl
  | cons p rest ih =>
    rw [shrinkKeep]
    split
    · exact ih
    · rename_i h
      push_neg at h
      exact Or.inr ⟨h.1, h.2⟩

theorem mergeGo_snd_flatten (m o : Nat) (ds carry fresh : List (List Char)) :
    ((mergeGo m o carry fresh ds).map Prod.snd).flatten = fresh.flatten ++ ds.flatten := by
  induction ds generalizing carry fresh with
  | nil =>
    rw [mergeGo]
    split
    · rename_i h
      rcases List.append_eq_nil.mp h with ⟨_, rfl⟩
      simp
    · simp
  | cons d ds ih =>
    rw [mergeGo]
    split
    · simp only [List.map_cons, List.flatten_cons]
      rw [ih]
      simp
    · rw [ih]
      simp

theorem mergeGo_length_le (m o : Nat) (ds : List (List Char))
    (hds : ∀ d ∈ ds, d.length ≤ m) :
    ∀ carry fresh, lenSum (carry ++ fresh) ≤ m →
      ∀ p ∈ mergeGo m o carry fresh ds, (p.1 ++ p.2).length ≤ m := by
  induction ds with
  | nil =>
    intro carry fresh hinv p hp
    rw [mergeGo] at hp
    split at hp
    · simp at hp
    · rcases List.mem_singleton.mp hp with rfl
      simp only [List.length_append, length_flatten_eq_lenSum]
      rw [← lenSum_append]
      exact hinv
  | cons d ds ih =>
    intro carry fresh hinv p hp
    have hd : d.length ≤ m := hds d (List.mem_cons_self d ds)
    have hds' : ∀ x ∈ ds, x.length ≤ m := fun x hx => hds x (List.mem_cons_of_mem d hx)
    rw [mergeGo] at hp
    split at hp
    · rcases List.mem_cons.mp hp with rfl | hp'
      · simp only [List.length_append, length_flatten_eq_lenSum]
        rw [← lenSum_append]
        exact hinv
      · refine ih hds' _ _ ?_ p hp'
        rcases shrinkKeep_spec m o d.length (carry ++ fresh) with hnil | hle
        · rw [hnil]
          simpa [lenSum] using hd
        · rw [lenSum_append]
          simpa [lenSum] using hle.2
    · refine ih hds' carry (fresh ++ [d]) ?_ p hp
      rename_i h
      rw [not_and_or] at h
      rcases h with h | h
      · push_neg at h
        rw [← List.append_assoc, lenSum_append]
        simpa [lenSum] using h
      · push_neg at h
        rcases List.append_eq_nil.mp h with ⟨rfl, rfl⟩
        simpa [lenSum] using hd

theorem mergeGo_ne_nil (m o : Nat) (ds : List (List Char))
    (hds : ∀ d ∈ ds, d ≠ []) :
    ∀ carry fresh, (∀ x ∈ carry ++ fresh, x ≠ []) →
      ∀ p ∈ mergeGo m o carry fresh ds, p.1 ++ p.2 ≠ [] := by
  induction ds with
  | nil =>
    intro carry fresh hcf p hp
    rw [mergeGo] at hp
    split at hp
    · simp at hp
    · rcases List.mem_singleton.mp hp with rfl
      rename_i h
      rw [← List.flatten_append]
      exact flatten_ne_nil_of_mem _ hcf h
  | cons d ds ih =>
    intro carry fresh hcf p hp
    have hd : d ≠ [] := hds d (List.mem_cons_self d ds)
    have hds' : ∀ x ∈ ds, x ≠ [] := fun x hx => hds x (List.mem_cons_of_mem d hx)
    rw [mergeGo] at hp
    split at hp
    · rename_i h
      rcases List.mem_cons.mp hp with rfl | hp'
      · rw [← List.flatten_append]
        exact flatten_ne_nil_of_mem _ hcf h.2
      · refine ih hds' _ _ ?_ p hp'
        intro x hx
        rcases List.mem_append.mp hx with hx | hx
        · exact hcf x ((shrinkKeep_suffix m o d.length (carry ++ fresh)).subset hx)
        · rcases List.mem_singleton.mp hx with rfl
          exact hd
    · refine ih hds' carry (fresh ++ [d]) ?_ p hp
      intro x hx
      rw [← List.append_assoc] at hx
      rcases List.mem_append.mp hx with hx | hx
      · exact hcf x hx
      · rcases List.mem_singleton.mp hx with rfl
        exact hd

theorem mergeGo_head_fst (m o : Nat) (ds : List (List Char)) :
    ∀ carry fresh p, (mergeGo m o carry fresh ds).head? = some p →
      p.1 = carry.flatten := by
  induction ds with
  | nil =>
    intro carry fresh p hp
    rw [mergeGo] at hp
    split at hp
    · simp at hp
    · simp only [List.head?_cons, Option.some.injEq] at hp
      rw [← hp]
  | cons d ds ih =>
    intro carry fresh p hp
    rw [mergeGo] at hp
    split at hp
    · simp only [List.head?_cons, Option.some.injEq] at hp
      rw [← hp]
    · exact ih carry (fresh ++ [d]) p hp

theorem flatten_suffix_of_suffix (l₁ l₂ : List (List Char)) (h : l₁ <:+ l₂) :
    l₁.flatten <:+ l₂.flatten := by
  rcases h with ⟨t, rfl⟩
  exact ⟨t.flatten, (List.flatten_append t l₁).symm⟩

theorem mergeGo_chain (m o : Nat) (ds : List (List Char)) :
    ∀ carry fresh,
      List.Chain' (fun a b => b.1 <:+ a.1 ++ a.2) (mergeGo m o carry fresh ds) := by
  induction ds with
  | nil =>
    intro carry fresh
    rw [mergeGo]
    split
    · exact List.chain'_nil
    · exact List.chain'_singleton _
  | cons d ds ih =>
    intro carry fresh
    rw [mergeGo]
    split
    · rw [List.chain'_cons']
      refine ⟨?_, ih _ _⟩
      intro b hb
      have hfst := mergeGo_head_fst m o ds _ [d] b hb
      rw [hfst]
      have hs : (shrinkKeep m o d.length (carry ++ fresh)).flatten <:+
          (carry ++ fresh).flatten :=
        flatten_suffix_of_suffix _ _ (shrinkKeep_suffix m o d.length (carry ++ fresh))
      rwa [List.flatten_append] at hs
    · exact ih carry (fresh ++ [d])

/-- Claim C2: for every input text, the Chunker (max_size 490, overlap 88,
prioritized separators) yields only non-empty chunks of character length at
most 490; the zero-based sequence indices assigned by enumeration are exactly
0, 1, …, n-1 and hence strictly increasing; each chunk after the first begins
with an overlap region that is a suffix of (i.e. duplicated from) its
predecessor, the first chunk's overlap region is empty, and concatenating the
chunks after removing each chunk's leading overlap region reconstructs the
original input text exactly. -/
theorem chunker_roundtrip (text : List Char) :
    (∀ c ∈ chunkTexts 490 88 text, c ≠ [] ∧ c.length ≤ 490) ∧
    (∀ p ∈ (chunkPairs 490 88 text).head?, p.1 = []) ∧
    List.Chain' (fun a b => b.1 <:+ a.1 ++ a.2) (chunkPairs 490 88 text) ∧
    ((chunkPairs 490 88 text).map Prod.snd).flatten = text ∧
    (chunkTexts 490 88 text).enum.map Prod.fst
      = List.range (chunkTexts 490 88 text).length := by
  refine ⟨?_, ?_, ?_, ?_, ?_⟩
  · intro c hc
    rcases List.mem_map.mp hc with ⟨p, hp, rfl⟩
    constructor
    · exact mergeGo_ne_nil 490 88 _ (splitRec_ne_nil 490 sepList text) [] []
        (by simp) p hp
    · exact mergeGo_length_le 490 88 _
        (splitRec_length_le 490 (by omega) sepList text) [] [] (by simp [lenSum]) p hp
  · intro p hp
    have := mergeGo_head_fst 490 88 (splitRec 490 sepList text) [] [] p hp
    simpa using this
  · exact mergeGo_chain 490 88 _ [] []
  · rw [chunkPairs, mergeGo_snd_flatten]
    simpa using splitRec_join 490 sepList text
  · exact List.enum_map_fst _

/-- Claim C9 counterexample: the empty input text is shorter than `max_size`, yet
the Chunker returns zero chunks for it, not exactly one. -/
theorem chunker_short_cex :
    ([] : List Char).length < 490 ∧ (chunkTexts 490 88 ([] : List Char)).length ≠ 1 := by
  decide

/-- Claim C9 (amended): every NON-EMPTY input text shorter than `max_size` yields
exactly one chunk, with no overlap applied (its overlap region is empty). -/
theorem chunker_short_single (t : List Char) (hne : t ≠ []) (hlt : t.length < 490) :
    chunkPairs 490 88 t = [([], t)] ∧ chunkTexts 490 88 t = [t] := by
  have hsplit : splitRec 490 sepList t = [t] := by
    cases t with
    | nil => exact absurd rfl hne
    | cons c cs =>
      rw [sepList, splitRec, if_pos (by omega)]
  have hpairs : chunkPairs 490 88 t = [([], t)] := by
    rw [chunkPairs, hsplit, mergeGo, if_neg (by simp), mergeGo, if_neg (by simp)]
    simp
  exact ⟨hpairs, by rw [chunkTexts, hpairs]; simp⟩

/-- Arithmetic simulation of `mergeGo` when every split is a single character:
`carry` is the carried overlap text, `fresh` the new text of the pending chunk,
`rest` the unprocessed text. -/
def chunkSim (carry fresh rest : List Char) : List (List Char × List Char) :=
  if h : 490 < carry.length + fresh.length + rest.length ∧ rest ≠ [] then
    (carry, fresh ++ rest.take (490 - (carry.length + fresh.length))) ::
      chunkSim
        ((carry ++ fresh ++ rest.take (490 - (carry.length + fresh.length))).drop 402)
        ((rest.drop (490 - (carry.length + fresh.length))).take 1)
        (rest.drop (490 - (carry.length + fresh.length) + 1))
  else
    if carry ++ fresh ++ rest = [] then [] else [(carry, fresh ++ rest)]
termination_by rest.length
decreasing_by
  simp only [List.length_drop]
  have : rest.length ≠ 0 := fun hz => h.2 (List.eq_nil_of_length_eq_zero hz)
  omega

theorem lenSum_map_singleton (l : List Char) :
    lenSum (l.map fun c => [c]) = l.length := by
  induction l with
  | nil => rfl
  | cons a as ih => simp [lenSum] at ih ⊢; omega

theorem shrinkKeep_singletons (l : List Char) :
    shrinkKeep 490 88 1 (l.map fun c => [c]) = (l.drop (l.length - 88)).map fun c => [c] := by
  induction l with
  | nil => simp [shrinkKeep]
  | cons a as ih =>
    have hsum : lenSum ([a] :: as.map fun c => [c]) = as.length + 1 := by
      have h := lenSum_map_singleton (a :: as)
      simpa [List.map_cons] using h
    simp only [List.map_cons]
    rw [shrinkKeep]
    by_cases h88 : as.length + 1 ≤ 88
    · rw [if_neg (by rw [hsum]; omega)]
      have h0 : (a :: as).length - 88 = 0 := by
        simp only [List.length_cons]; omega
      rw [h0, List.drop_zero, List.map_cons]
    · rw [if_pos (by rw [hsum]; omega)]
      rw [ih]
      have hstep : (a :: as).length - 88 = (as.length - 88) + 1 := by
        simp only [List.length_cons]; omega
      rw [hstep, List.drop_succ_cons]

theorem chunkSim_shift (carry fresh ds : List Char) (d : Char)
    (h : carry.length + fresh.length + 1 ≤ 490) :
    chunkSim carry fresh (d :: ds) = chunkSim carry (fresh ++ [d]) ds := by
  by_cases hbig : 490 < carry.length + fresh.length + (d :: ds).length
  · have hds : ds ≠ [] := by
      intro hz
      subst hz
      simp only [List.length_cons, List.length_nil] at hbig
      omega
    have hr : 490 - (carry.length + fresh.length)
        = (490 - (carry.length + (fresh ++ [d]).length)) + 1 := by
      simp only [List.length_append, List.length_singleton]
      omega
    conv_lhs => rw [chunkSim]
    rw [dif_pos ⟨hbig, List.cons_ne_nil d ds⟩]
    conv_rhs => rw [chunkSim]
    rw [dif_pos ⟨by
      simp only [List.length_append, List.length_singleton]
      simp only [List.length_cons] at hbig
      omega, hds⟩]
    rw [hr]
    simp only [List.take_succ_cons, List.drop_succ_cons]
    have hassoc : carry ++ fresh ++
          d :: List.take (490 - (carry.length + (fresh ++ [d]).length)) ds
        = carry ++ (fresh ++ [d]) ++
          List.take (490 - (carry.length + (fresh ++ [d]).length)) ds := by
      simp
    have hpair : fresh ++ d :: List.take (490 - (carry.length + (fresh ++ [d]).length)) ds
        = (fresh ++ [d]) ++ List.take (490 - (carry.length + (fresh ++ [d]).length)) ds := by
      simp
    rw [hassoc, hpair]
  · have hsmall : ¬ (490 < carry.length + (fresh ++ [d]).length + ds.length ∧ ds ≠ []) := by
      intro hc
      apply hbig
      simp only [List.length_append, List.length_singleton] at hc
      simp only [List.length_cons]
      omega
    conv_lhs => rw [chunkSim]
    rw [dif_neg (fun hc => hbig hc.1)]
    conv_rhs => rw [chunkSim]
    rw [dif_neg hsmall]
    rw [if_neg (by simp), if_neg (by simp)]
    simp

theorem mergeGo_singletons (rest : List Char) :
    ∀ carry fresh : List Char,
      carry.length ≤ 88 → carry.length + fresh.length ≤ 490 →
      mergeGo 490 88 (carry.map fun c => [c]) (fresh.map fun c => [c])
          (rest.map fun c => [c])
        = chunkSim carry fresh rest := by
  induction rest with
  | nil =>
    intro carry fresh hc hcf
    rw [List.map_nil, mergeGo, chunkSim, dif_neg (by simp)]
    by_cases hnil : carry ++ fresh = []
    · rcases List.append_eq_nil.mp hnil with ⟨rfl, rfl⟩
      simp
    · rw [if_neg (by
          rw [← List.map_append]
          simpa using hnil),
        if_neg (by simpa using hnil)]
      rw [join_map_singleton, join_map_singleton, List.append_nil]
  | cons d ds ih =>
    intro carry fresh hc hcf
    rw [List.map_cons, mergeGo]
    have hlen : lenSum ((carry.map fun c => [c]) ++ fresh.map fun c => [c])
        = carry.length + fresh.length := by
      rw [← List.map_append, lenSum_map_singleton, List.length_append]
    by_cases hcond : 490 < carry.length + fresh.length + 1 ∧ carry ++ fresh ≠ []
    · have h490 : carry.length + fresh.length = 490 := by omega
      rw [if_pos (by
        constructor
        · rw [hlen, List.length_singleton]
          omega
        · rw [← List.map_append]
          simpa using hcond.2)]
      rw [← List.map_append, List.length_singleton, shrinkKeep_singletons]
      have hdrop : (carry ++ fresh).length - 88 = 402 := by
        rw [List.length_append]; omega
      rw [hdrop]
      have hih := ih ((carry ++ fresh).drop 402) [d] (by
          simp only [List.length_drop, List.length_append]
          omega) (by
          simp only [List.length_drop, List.length_append, List.length_singleton]
          omega)
      rw [List.map_singleton] at hih
      rw [hih]
      conv_rhs => rw [chunkSim]
      rw [dif_pos (by
        refine ⟨?_, List.cons_ne_nil d ds⟩
        simp only [List.length_cons]
        omega)]
      have hr0 : 490 - (carry.length + fresh.length) = 0 := by omega
      rw [hr0]
      simp only [List.take_zero, List.append_nil, List.drop_zero, List.take_succ_cons,
        List.take_zero, Nat.zero_add, List.drop_succ_cons, List.drop_zero]
      rw [join_map_singleton, join_map_singleton]
    · rw [if_neg (by
        intro hcc
        apply hcond
        constructor
        · rw [hlen] at hcc
          simpa using hcc.1
        · rw [← List.map_append] at hcc
          simpa using hcc.2)]
      have hcf1 : carry.length + fresh.length + 1 ≤ 490 := by
        rw [not_and_or] at hcond
        rcases hcond with h | h
        · omega
        · push_neg at h
          rcases List.append_eq_nil.mp h with ⟨rfl, rfl⟩
          simp
      have hfr : (fresh.map fun c => ([c] : List Char)) ++ [[d]]
          = (fresh ++ [d]).map fun c => [c] := by
        simp
      rw [hfr]
      rw [ih carry (fresh ++ [d]) hc (by
        simp only [List.length_append, List.length_singleton]
        omega)]
      exact (chunkSim_shift carry fresh ds d hcf1).symm

theorem takeToSep_nosep (h : Char) (hs t : List Char) (hnot : h ∉ t) :
    takeToSep (h :: hs) t = (t, []) := by
  induction t with
  | nil => rfl
  | cons c rest ih =>
    have hch : c ≠ h := fun he => hnot (he ▸ List.mem_cons_self c rest)
    rw [takeToSep, if_neg ?_]
    · rw [ih (fun hm => hnot (List.mem_cons_of_mem c hm))]
    · intro hc
      have hsw := hc.2
      simp only [startsWith, Bool.and_eq_true, beq_iff_eq] at hsw
      exact hch hsw.1.symm

theorem splitOnSep_nosep (h : Char) (hs : List Char) (c : Char) (rest : List Char)
    (hnot : h ∉ c :: rest) :
    splitOnSep (h :: hs) (c :: rest) = [c :: rest] := by
  rw [splitOnSep, takeToSep_nosep h hs (c :: rest) hnot]
  rw [splitOnSep]

theorem splitRec_sepList_nosep (t : List Char) (hn : '\n' ∉ t) (hsp : ' ' ∉ t)
    (hbig : 490 < t.length) :
    splitRec 490 sepList t = t.map fun c => [c] := by
  cases t with
  | nil => simp at hbig
  | cons c cs =>
    simp only [List.length_cons] at hbig
    rw [sepList]
    rw [splitRec, if_neg (by simp only [List.length_cons]; omega),
      splitOnSep_nosep '\n' _ c cs hn]
    simp only [List.flatMap_cons, List.flatMap_nil, List.append_nil]
    rw [splitRec, if_neg (by simp only [List.length_cons]; omega),
      splitOnSep_nosep '\n' _ c cs hn]
    simp only [List.flatMap_cons, List.flatMap_nil, List.append_nil]
    rw [splitRec, if_neg (by simp only [List.length_cons]; omega),
      splitOnSep_nosep '\n' _ c cs hn]
    simp only [List.flatMap_cons, List.flatMap_nil, List.append_nil]
    rw [splitRec, if_neg (by simp only [List.length_cons]; omega),
      splitOnSep_nosep ' ' _ c cs hsp]
    simp only [List.flatMap_cons, List.flatMap_nil, List.append_nil]
    rw [splitRec, if_neg (by simp only [List.length_cons]; omega)]

/-- Claim C3: for every extracted text of exactly 1000 characters containing none of
the configured separators (no newlines, no spaces), the Chunker (max_size 490,
overlap 88) produces exactly the three chunks `t[0:490]`, `t[402:892]`,
`t[804:1000]`: their lengths are 490, 490 and 196 (so at most 490), and each
chunk after the first begins with the last 88 characters of its predecessor. -/
theorem chunker_1000_scenario (t : List Char) (hlen : t.length = 1000)
    (hn : '\n' ∉ t) (hsp : ' ' ∉ t) :
    chunkTexts 490 88 t = [t.take 490, (t.drop 402).take 490, t.drop 804] ∧
    (chunkTexts 490 88 t).map List.length = [490, 490, 196] ∧
    ((t.drop 402).take 490).take 88 = (t.take 490).drop (490 - 88) ∧
    (t.drop 804).take 88 = ((t.drop 402).take 490).drop (490 - 88) := by
  have hsplit := splitRec_sepList_nosep t hn hsp (by omega)
  have hbridge : chunkPairs 490 88 t = chunkSim [] [] t := by
    rw [chunkPairs, hsplit]
    exact mergeGo_singletons t [] [] (by simp) (by simp)
  -- first unfolding: emit t[0:490]
  have htne : t ≠ [] := by
    intro hz; rw [hz] at hlen; simp at hlen
  have h1 : chunkSim [] [] t
      = ([], t.take 490) ::
          chunkSim ((t.take 490).drop 402) ((t.drop 490).take 1) (t.drop 491) := by
    rw [chunkSim, dif_pos ⟨by simp [hlen], htne⟩]
    norm_num
  -- lengths of the stage-two state
  have hl1 : ((t.take 490).drop 402).length = 88 := by
    simp [hlen]
  have hl2 : ((t.drop 490).take 1).length = 1 := by
    simp [hlen]
  have hl3 : (t.drop 491).length = 509 := by
    simp [hlen]
  have hr1ne : t.drop 491 ≠ [] := by
    intro hz
    rw [hz] at hl3
    simp at hl3
  -- second unfolding: emit t[402:892]
  have h2 : chunkSim ((t.take 490).drop 402) ((t.drop 490).take 1) (t.drop 491)
      = ((t.take 490).drop 402, (t.drop 490).take 1 ++ (t.drop 491).take 401) ::
          chunkSim
            (((t.take 490).drop 402 ++ ((t.drop 490).take 1 ++ (t.drop 491).take 401)).drop 402)
            (((t.drop 491).drop 401).take 1)
            ((t.drop 491).drop 402) := by
    rw [chunkSim, dif_pos ⟨by rw [hl1, hl2, hl3]; omega, hr1ne⟩]
    rw [hl1, hl2]
    norm_num
  -- simplify the stage-three state to clean slices of t
  have hfuse1 : (t.drop 490).take 1 ++ (t.drop 491).take 401 = (t.drop 490).take 402 := by
    have hd : (t.drop 490).drop 1 = t.drop 491 := by
      rw [List.drop_drop]
    rw [← hd, ← List.take_add]
  have hslice1 : (t.take 490).drop 402 = (t.drop 402).take 88 := by
    rw [List.drop_take]
  have hfuse2 : (t.drop 402).take 88 ++ (t.drop 490).take 402 = (t.drop 402).take 490 := by
    have hd : (t.drop 402).drop 88 = t.drop 490 := by
      rw [List.drop_drop]
    rw [← hd, ← List.take_add]
  have hchunk2 : (t.take 490).drop 402 ++ ((t.drop 490).take 1 ++ (t.drop 491).take 401)
      = (t.drop 402).take 490 := by
    rw [hfuse1, hslice1, hfuse2]
  have hcarry2 : ((t.drop 402).take 490).drop 402 = (t.drop 804).take 88 := by
    rw [List.drop_take, List.drop_drop]
  have hf2 : ((t.drop 491).drop 401).take 1 = (t.drop 892).take 1 := by
    rw [List.drop_drop]
  have hr2 : (t.drop 491).drop 402 = t.drop 893 := by
    rw [List.drop_drop]
  -- third unfolding: the final chunk t[804:1000]
  have hl4 : ((t.drop 804).take 88).length = 88 := by
    simp [hlen]
  have hl5 : ((t.drop 892).take 1).length = 1 := by
    simp [hlen]
  have hl6 : (t.drop 893).length = 107 := by
    simp [hlen]
  have h3 : chunkSim ((t.drop 804).take 88) ((t.drop 892).take 1) (t.drop 893)
      = [((t.drop 804).take 88, (t.drop 892).take 1 ++ t.drop 893)] := by
    rw [chunkSim, dif_neg (by
      intro hcc
      have := hcc.1
      rw [hl4, hl5, hl6] at this
      omega)]
    rw [if_neg (by
      intro hz
      have : (((t.drop 804).take 88) ++ ((t.drop 892).take 1) ++ t.drop 893).length = 0 := by
        rw [hz]; rfl
      rw [List.length_append, List.length_append, hl4, hl5, hl6] at this
      omega)]
  have hfuse3 : (t.drop 892).take 1 ++ t.drop 893 = t.drop 892 := by
    have hd : (t.drop 892).drop 1 = t.drop 893 := by
      rw [List.drop_drop]
    rw [← hd, List.take_append_drop]
  have hlast : (t.drop 804).take 88 ++ t.drop 892 = t.drop 804 := by
    have hd : (t.drop 804).drop 88 = t.drop 892 := by
      rw [List.drop_drop]
    rw [← hd, List.take_append_drop]
  have hpairs : chunkPairs 490 88 t
      = [([], t.take 490),
         ((t.drop 402).take 88, (t.drop 490).take 402),
         ((t.drop 804).take 88, t.drop 892)] := by
    rw [hbridge, h1, h2, hchunk2, hcarry2, hf2, hr2, h3, hfuse1, hslice1, hfuse3]
  have htexts : chunkTexts 490 88 t = [t.take 490, (t.drop 402).take 490, t.drop 804] := by
    rw [chunkTexts, hpairs]
    simp only [List.map_cons, List.map_nil, List.nil_append]
    rw [hfuse2, hlast]
  refine ⟨htexts, ?_, ?_, ?_⟩
  · rw [htexts]
    simp [hlen]
  · rw [List.take_take, hslice1]
    norm_num
  · show (t.drop 804).take 88 = ((t.drop 402).take 490).drop (490 - 88)
    rw [← hcarry2]

/-- Claim C9 witness: the amended statement applied at the concrete two-character
input text "ab". -/
theorem chunker_short_single_witness :
    "ab".data ≠ [] ∧ "ab".data.length < 490 ∧ chunkTexts 490 88 ("ab".data) = ["ab".data] :=
  ⟨by decide, by decide, (chunker_short_single ("ab".data) (by decide) (by decide)).2⟩

/-- Claim C3 witness: the scenario theorem applied at the concrete separator-free
1000-character text consisting of 1000 copies of the letter a. -/
theorem chunker_1000_scenario_witness :
    (List.replicate 1000 'a').length = 1000 ∧
    (chunkTexts 490 88 (List.replicate 1000 'a')).map List.length = [490, 490, 196] :=
  ⟨List.length_replicate 1000 'a',
   (chunker_1000_scenario (List.replicate 1000 'a') (List.length_replicate 1000 'a')
      (fun h => absurd (List.eq_of_mem_replicate h) (by decide))
      (fun h => absurd (List.eq_of_mem_replicate h) (by decide))).2.1⟩

/-! ## Redactor

`redact_phi` applies five `re.sub` passes in order.  Each Python regex is
translated into a matcher `… → Option Nat` that, at a given position, returns
the length of the match the backtracking engine finds there (`none` if no
match starts at this position).  Character classes follow the ASCII reading of
`\d`, `\s`, `\w`, `[A-Z]`, `[a-z]`, `[A-Za-z]`.
-/

/-- Python `\s` (ASCII): space, tab, newline, carriage return, vertical tab,
form feed. -/
def isPySpace (c : Char) : Bool :=
  c == ' ' || c == '\t' || c == '\n' || c == '\x0b' || c == '\x0c' || c == '\r'

/-- Python `\w` (ASCII): letters, digits and underscore. -/
def isWordChar (c : Char) : Bool := c.isAlphanum || c == '_'

def wordOpt : Option Char → Bool
  | some c => isWordChar c
  | none => false

/-- Python `\b`: a word boundary lies between two positions exactly when one
side is a word character and the other is not (an end of the string counts as
a non-word character). -/
def wbBoundary (a b : Option Char) : Bool := wordOpt a != wordOpt b

/-- `\b` placed immediately after a consumed word character (digit or letter):
the boundary holds exactly when the next character is not a word character. -/
def wbEndWord (s : List Char) : Option Nat := if wordOpt s.head? then none else some 0

/-- Consume exactly `n` characters matching `\d`. -/
def takeDigits : Nat → List Char → Option (List Char)
  | 0, s => some s
  | _ + 1, [] => none
  | n + 1, c :: s => if c.isDigit then takeDigits n s else none

/-- Greedy `p+` followed by the continuation `k`, with backtracking: the
longest run is tried first, then shorter runs, each at least one character;
`k` receives the last consumed character and the remainder. -/
def runThen (p : Char → Bool) (k : Char → List Char → Option Nat) :
    List Char → Option Nat
  | [] => none
  | c :: rest =>
    if p c then
      match runThen p k rest with
      | some n => some (n + 1)
      | none => (k c rest).map (· + 1)
    else none

/-- Greedy `p{lo,hi}` followed by the continuation `k`, with backtracking:
longer consumptions are tried first, never fewer than `lo` characters. -/
def repRange (p : Char → Bool) : Nat → Nat → (List Char → Option Nat) →
    List Char → Option Nat
  | lo, 0, k, s => if lo = 0 then k s else none
  | lo, _ + 1, k, [] => if lo = 0 then k [] else none
  | lo, hi + 1, k, c :: rest =>
    if p c then
      match repRange p (lo - 1) hi k rest with
      | some n => some (n + 1)
      | none => if lo = 0 then k (c :: rest) else none
    else if lo = 0 then k (c :: rest) else none

/-- Consume an exact literal, returning the remainder. -/
def stripLit : List Char → List Char → Option (List Char)
  | [], s => some s
  | _ :: _, [] => none
  | a :: as, b :: bs => if a == b then stripLit as bs else none

/-! ### Pass 1: `\b(Mr\.|Mrs\.|Ms\.|Dr\.)?\s?[A-Z][a-z]+\s[A-Z][a-z]+\b` -/

/-- `[A-Z][a-z]+\b`: the final capitalized word of the name pattern. -/
def nameWord2 (s : List Char) : Option Nat :=
  match s with
  | c :: rest =>
    if c.isUpper then (runThen Char.isLower (fun _ r => wbEndWord r) rest).map (· + 1)
    else none
  | [] => none

/-- `\s[A-Z][a-z]+\b`. -/
def nameSpaceWord (_lc : Char) (s : List Char) : Option Nat :=
  match s with
  | c :: rest => if isPySpace c then (nameWord2 rest).map (· + 1) else none
  | [] => none

/-- `[A-Z][a-z]+\s[A-Z][a-z]+\b`. -/
def nameWords (s : List Char) : Option Nat :=
  match s with
  | c :: rest =>
    if c.isUpper then (runThen Char.isLower nameSpaceWord rest).map (· + 1)
    else none
  | [] => none

/-- `\s?[A-Z][a-z]+\s[A-Z][a-z]+\b`: the greedy optional whitespace is tried
consumed first, and skipped if the remainder of the pattern then fails. -/
def nameOptSpace (s : List Char) : Option Nat :=
  match s with
  | c :: rest =>
    if isPySpace c then
      match nameWords rest with
      | some n => some (n + 1)
      | none => nameWords (c :: rest)
    else nameWords (c :: rest)
  | [] => nameWords []

def honorifics : List (List Char) :=
  [['M', 'r', '.'], ['M', 'r', 's', '.'], ['M', 's', '.'], ['D', 'r', '.']]

/-- `(Mr\.|Mrs\.|Ms\.|Dr\.)?…`: each alternative is tried in order together
with the rest of the pattern; the empty alternative comes last. -/
def nameAlts : List (List Char) → List Char → Option Nat
  | [], s => nameOptSpace s
  | lit :: more, s =>
    match stripLit lit s with
    | some r =>
      match nameOptSpace r with
      | some n => some (n + lit.length)
      | none => nameAlts more s
    | none => nameAlts more s

/-- The full name pattern `\b(Mr\.|Mrs\.|Ms\.|Dr\.)?\s?[A-Z][a-z]+\s[A-Z][a-z]+\b`. -/
def nameAt (prev : Option Char) (s : List Char) : Option Nat :=
  if wbBoundary prev s.head? then nameAlts honorifics s else none

/-! ### Pass 2: `\b\d{1,2}/\d{1,2}/\d{2,4}\b|\b(?:Jan|…|Dec)\s\d{1,2},\s\d{4}\b|\b\d{4}-\d{2}-\d{2}\b` -/

/-- Date alternative 1: `\b\d{1,2}/\d{1,2}/\d{2,4}\b`. -/
def dateA1 (prev : Option Char) (s : List Char) : Option Nat :=
  if wbBoundary prev s.head? then
    repRange Char.isDigit 1 2 (fun r1 =>
      match r1 with
      | '/' :: r2 =>
        (repRange Char.isDigit 1 2 (fun r3 =>
          match r3 with
          | '/' :: r4 => (repRange Char.isDigit 2 4 wbEndWord r4).map (· + 1)
          | _ => none) r2).map (· + 1)
      | _ => none) s
  else none

def monthLits : List (List Char) :=
  [['J', 'a', 'n'], ['F', 'e', 'b'], ['M', 'a', 'r'], ['A', 'p', 'r'],
   ['M', 'a', 'y'], ['J', 'u', 'n'], ['J', 'u', 'l'], ['A', 'u', 'g'],
   ['S', 'e', 'p'], ['O', 'c', 't'], ['N', 'o', 'v'], ['D', 'e', 'c']]

/-- `\s\d{1,2},\s\d{4}\b`: the tail of date alternative 2. -/
def dateA2Tail (s : List Char) : Option Nat :=
  match s with
  | c :: r1 =>
    if isPySpace c then
      (repRange Char.isDigit 1 2 (fun r2 =>
        match r2 with
        | ',' :: d :: r4 =>
          if isPySpace d then (repRange Char.isDigit 4 4 wbEndWord r4).map (· + 2)
          else none
        | _ => none) r1).map (· + 1)
    else none
  | [] => none

/-- `(?:Jan|…|Dec)` followed by the tail, trying alternatives in order. -/
def dateA2Alts : List (List Char) → List Char → Option Nat
  | [], _ => none
  | lit :: more, s =>
    match stripLit lit s with
    | some r =>
      match dateA2Tail r with
      | some n => some (n + lit.length)
      | none => dateA2Alts more s
    | none => dateA2Alts more s

/-- Date alternative 2: `\b(?:Jan|…|Dec)\s\d{1,2},\s\d{4}\b`. -/
def dateA2 (prev : Option Char) (s : List Char) : Option Nat :=
  if wbBoundary prev s.head? then dateA2Alts monthLits s else none

/-- Date alternative 3: `\b\d{4}-\d{2}-\d{2}\b`. -/
def dateA3 (prev : Option Char) (s : List Char) : Option Nat :=
  if wbBoundary prev s.head? then
    repRange Char.isDigit 4 4 (fun r1 =>
      match r1 with
      | '-' :: r2 =>
        (repRange Char.isDigit 2 2 (fun r3 =>
          match r3 with
          | '-' :: r4 => (repRange Char.isDigit 2 2 wbEndWord r4).map (· + 1)
          | _ => none) r2).map (· + 1)
      | _ => none) s
  else none

/-- The full date pattern: the three alternatives are tried in order. -/
def dateAt (prev : Option Char) (s : List Char) : Option Nat :=
  match dateA1 prev s with
  | some n => some n
  | none =>
    match dateA2 prev s with
    | some n => some n
    | none => dateA3 prev s

/-! ### Pass 3: `\(?\d{3}\)?[-.\s]?\d{3}[-.\s]?\d{4}` -/

/-- The separator class `[-.\s]` of the phone pattern. -/
def isPhoneSep (c : Char) : Bool := c == '-' || c == '.' || isPySpace c

/-- The empty rest-of-pattern: matches zero characters. -/
def matchDone (_ : List Char) : Option Nat := some 0

/-- `\d{k}` followed by the rest of the pattern. -/
def digitsThen (k : Nat) (inner : List Char → Option Nat) (s : List Char) : Option Nat :=
  (takeDigits k s).bind (fun rest => (inner rest).map (· + k))

/-- `[-.\s]?` followed by the rest of the pattern: the greedy optional
separator is tried consumed first, and skipped if the rest then fails. -/
def optSepThen (inner : List Char → Option Nat) (s : List Char) : Option Nat :=
  match s with
  | c :: rest =>
    if isPhoneSep c then
      match inner rest with
      | some n => some (n + 1)
      | none => inner (c :: rest)
    else inner (c :: rest)
  | [] => inner []

/-- An optional literal character (`\(?` or `\)?`) followed by the rest of the
pattern: greedy, with backtracking into the rest of the pattern. -/
def optCharThen (pc : Char) (inner : List Char → Option Nat) (s : List Char) : Option Nat :=
  match s with
  | c :: rest =>
    if c = pc then
      match inner rest with
      | some n => some (n + 1)
      | none => inner (c :: rest)
    else inner (c :: rest)
  | [] => inner []

/-- A mandatory literal dash (`-`) followed by the rest of the pattern. -/
def dashThen (inner : List Char → Option Nat) (s : List Char) : Option Nat :=
  match s with
  | c :: rest => if c = '-' then (inner rest).map (· + 1) else none
  | [] => none

/-- `\d{4}`: the final four digits of the phone pattern. -/
def phoneTail : List Char → Option Nat := digitsThen 4 matchDone

/-- `[-.\s]?\d{4}`. -/
def phoneSep2 : List Char → Option Nat := optSepThen phoneTail

/-- `\d{3}[-.\s]?\d{4}`. -/
def phoneMid : List Char → Option Nat := digitsThen 3 phoneSep2

/-- `[-.\s]?\d{3}[-.\s]?\d{4}`. -/
def phoneSep1 : List Char → Option Nat := optSepThen phoneMid

/-- `\)?[-.\s]?\d{3}[-.\s]?\d{4}`. -/
def phoneParen : List Char → Option Nat := optCharThen ')' phoneSep1

/-- `\d{3}\)?[-.\s]?\d{3}[-.\s]?\d{4}`. -/
def phoneBody : List Char → Option Nat := digitsThen 3 phoneParen

/-- The full phone pattern `\(?\d{3}\)?[-.\s]?\d{3}[-.\s]?\d{4}`. -/
def phoneAt : List Char → Option Nat := optCharThen '(' phoneBody

/-! ### Pass 4: `\d{3}-\d{2}-\d{4}` -/

/-- The full SSN pattern `\d{3}-\d{2}-\d{4}` (always 11 characters). -/
def ssnAt : List Char → Option Nat :=
  digitsThen 3 (dashThen (digitsThen 2 (dashThen (digitsThen 4 matchDone))))

/-! ### Pass 5: `\b\d+\s[A-Za-z]+\s(Street|St|Road|Rd|Avenue|Ave|Boulevard|Blvd|Lane|Ln|Drive|Dr)\b` -/

def roadLits : List (List Char) :=
  [['S', 't', 'r', 'e', 'e', 't'], ['S', 't'], ['R', 'o', 'a', 'd'], ['R', 'd'],
   ['A', 'v', 'e', 'n', 'u', 'e'], ['A', 'v', 'e'],
   ['B', 'o', 'u', 'l', 'e', 'v', 'a', 'r', 'd'], ['B', 'l', 'v', 'd'],
   ['L', 'a', 'n', 'e'], ['L', 'n'], ['D', 'r', 'i', 'v', 'e'], ['D', 'r']]

/-- `(Street|St|…|Dr)\b`: alternatives in source order, each followed by the
word boundary, with backtracking to the next alternative. -/
def addrRoad : List (List Char) → List Char → Option Nat
  | [], _ => none
  | lit :: more, s =>
    match stripLit lit s with
    | some r => if wordOpt r.head? then addrRoad more s else some lit.length
    | none => addrRoad more s

/-- `\s(Street|…)\b`. -/
def addrTail2 (_lc : Char) (s : List Char) : Option Nat :=
  match s with
  | c :: r => if isPySpace c then (addrRoad roadLits r).map (· + 1) else none
  | [] => none

/-- `[A-Za-z]+\s(Street|…)\b`. -/
def addrWordTail (s : List Char) : Option Nat :=
  runThen Char.isAlpha addrTail2 s

/-- The full address pattern `\b\d+\s[A-Za-z]+\s(Street|…|Dr)\b`. -/
def addrAt (prev : Option Char) (s : List Char) : Option Nat :=
  if wbBoundary prev s.head? then
    runThen Char.isDigit (fun _ r =>
      match r with
      | c :: r2 => if isPySpace c then (addrWordTail r2).map (· + 1) else none
      | [] => none) s
  else none

/-! ### `re.sub` -/

/-- `re.sub`: scan left to right; at each position, if the pattern matches a
non-empty span, emit the replacement and continue after the matched span,
otherwise copy the character.  (None of the five patterns can match the empty
string, so a zero-length result is treated as no match.)  `prev` is the
character before the current position in the original text, for `\b`.  The
structural fuel decreases by one per step while at least one character is
consumed per step, so `fuel = s.length` (as supplied by `reSub`) always
suffices and the `fuel = 0` case is never reached on a non-empty text. -/
def reSubGo (m : Option Char → List Char → Option Nat) (repl : List Char) :
    Nat → Option Char → List Char → List Char
  | 0, _, s => s
  | _ + 1, _, [] => []
  | fuel + 1, prev, c :: rest =>
    match m prev (c :: rest) with
    | some (n + 1) => repl ++ reSubGo m repl fuel ((c :: rest)[n]?) (rest.drop n)
    | _ => c :: reSubGo m repl fuel (some c) rest

def reSub (m : Option Char → List Char → Option Nat) (repl : List Char)
    (s : List Char) : List Char :=
  reSubGo m repl s.length none s

/-- PHI redaction (`redact_phi` in `local_processor.py`): five ordered
`re.sub` passes — patient names, dates, phone numbers, SSNs, street
addresses — each replacing every non-overlapping match with its category
placeholder. -/
def redact_phi (text : List Char) : List Char :=
  let t1 := reSub nameAt ("[PATIENT_NAME]".data) text
  let t2 := reSub dateAt ("[DATE]".data) t1
  let t3 := reSub (fun _ s => phoneAt s) ("[PHONE_NUMBER]".data) t2
  let t4 := reSub (fun _ s => ssnAt s) ("[SSN]".data) t3
  reSub addrAt ("[ADDRESS]".data) t4

/-- Claim C4: applying the Redactor to the text
"John Smith, SSN 123-45-6789, called 555-123-4567 on 03/14/2024" replaces the
name, SSN, phone and date spans each with its category placeholder, yielding
"[PATIENT_NAME], SSN [SSN], called [PHONE_NUMBER] on [DATE]" — the unmatched
text ", SSN , called  on " is preserved with placeholders inserted at each
matched span. -/
theorem redact_scenario :
    redact_phi ("John Smith, SSN 123-45-6789, called 555-123-4567 on 03/14/2024".data)
      = "[PATIENT_NAME], SSN [SSN], called [PHONE_NUMBER] on [DATE]".data := by
  decide

/-! ### Idempotence machinery for context-free substitution passes (C8)

The SSN and phone patterns contain no `\b`, so their matchers ignore the
left context.  For such a matcher `mc` whose matches consist only of
characters from a class `P`, and a replacement containing no `P`-characters:
after one pass no match remains, and subsequent passes whose replacements
also contain no `P`-characters cannot create one, so a second application of
the pass is the identity.
-/

/-- No match of the context-free matcher `mc` starts anywhere in `u`. -/
def noMatch (mc : List Char → Option Nat) (u : List Char) : Prop :=
  ∀ i, mc (u.drop i) = none

theorem noMatch_drop (mc : List Char → Option Nat) (u : List Char)
    (h : noMatch mc u) (j : Nat) : noMatch mc (u.drop j) := by
  intro i
  rw [List.drop_drop]
  exact h (j + i)

theorem noMatch_nil (mc : List Char → Option Nat)
    (hPos : ∀ s n, mc s = some n → 1 ≤ n)
    (hLen : ∀ s n, mc s = some n → n ≤ s.length) : noMatch mc [] := by
  intro i
  rw [List.drop_nil]
  cases hm : mc [] with
  | none => rfl
  | some n =>
    have h1 := hPos [] n hm
    have h2 := hLen [] n hm
    simp only [List.length_nil, Nat.le_zero] at h2
    omega

theorem head_mem_take {c : Char} {l : List Char} {n : Nat} (hn : 1 ≤ n) :
    c ∈ (c :: l).take n := by
  cases n with
  | zero => omega
  | succ m => simp [List.take_succ_cons]

theorem noMatch_append (mc : List Char → Option Nat) (P : Char → Bool)
    (hPos : ∀ s n, mc s = some n → 1 ≤ n)
    (hChars : ∀ s n, mc s = some n → ∀ c ∈ s.take n, P c = true)
    (a b : List Char) (ha : ∀ c ∈ a, P c = false) (hb : noMatch mc b) :
    noMatch mc (a ++ b) := by
  intro i
  by_cases hi : i < a.length
  · cases hm : mc ((a ++ b).drop i) with
    | none => rfl
    | some n =>
      exfalso
      have h1 := hPos _ _ hm
      have hchars := hChars _ _ hm
      have hia : i < (a ++ b).length := by
        rw [List.length_append]; omega
      have hdrop : (a ++ b).drop i = a[i] :: (a ++ b).drop (i + 1) := by
        rw [List.drop_eq_getElem_cons hia, List.getElem_append_left hi]
      rw [hdrop] at hchars
      have hPm := hchars _ (head_mem_take h1)
      have hFm := ha _ (List.getElem_mem hi)
      rw [hFm] at hPm
      exact Bool.false_ne_true hPm
  · have hirw : i = a.length + (i - a.length) := by omega
    rw [hirw, List.drop_append]
    exact hb _

/-- If the first `n` characters of the output of a substitution pass all lie
in a class `P` that excludes every character of the (non-empty) replacement,
then those `n` characters are copied verbatim from the input. -/
theorem reSubGo_take_eq (m' : Option Char → List Char → Option Nat)
    (r' : List Char) (P : Char → Bool)
    (hR : ∀ c ∈ r', P c = false) (hne : r' ≠ []) :
    ∀ fuel prev (x : List Char) n, x.length ≤ fuel →
      (∀ c ∈ (reSubGo m' r' fuel prev x).take n, P c = true) →
      (reSubGo m' r' fuel prev x).take n = x.take n := by
  intro fuel
  induction fuel with
  | zero =>
    intro prev x n _ _
    rfl
  | succ fuel ih =>
    intro prev x n hx hP
    cases x with
    | nil => rfl
    | cons c rest =>
      have hrest : rest.length ≤ fuel := by
        simp only [List.length_cons] at hx; omega
      cases hm : m' prev (c :: rest) with
      | none =>
        simp only [reSubGo, hm] at hP ⊢
        cases n with
        | zero => rfl
        | succ j =>
          simp only [List.take_succ_cons] at hP ⊢
          have hP' : ∀ c' ∈ (reSubGo m' r' fuel (some c) rest).take j, P c' = true :=
            fun c' hc' => hP c' (List.mem_cons_of_mem _ hc')
          rw [ih (some c) rest j hrest hP']
      | some k =>
        cases k with
        | zero =>
          simp only [reSubGo, hm] at hP ⊢
          cases n with
          | zero => rfl
          | succ j =>
            simp only [List.take_succ_cons] at hP ⊢
            have hP' : ∀ c' ∈ (reSubGo m' r' fuel (some c) rest).take j, P c' = true :=
              fun c' hc' => hP c' (List.mem_cons_of_mem _ hc')
            rw [ih (some c) rest j hrest hP']
        | succ k' =>
          simp only [reSubGo, hm] at hP ⊢
          cases n with
          | zero => rfl
          | succ j =>
            exfalso
            rcases hr : r' with _ | ⟨rc, r''⟩
            · exact hne hr
            · rw [hr] at hP
              simp only [List.cons_append, List.take_succ_cons] at hP
              have hPt := hP rc (List.mem_cons_self rc _)
              have hPf := hR rc (by rw [hr]; exact List.mem_cons_self rc r'')
              rw [hPf] at hPt
              exact Bool.false_ne_true hPt

/-- After one pass of a context-free matcher whose matches consist only of
`P`-characters, with a non-empty replacement containing no `P`-characters,
no match remains anywhere in the output. -/
theorem reSubGo_self_noMatch (mc : List Char → Option Nat) (P : Char → Bool)
    (repl : List Char)
    (hPos : ∀ s n, mc s = some n → 1 ≤ n)
    (hLen : ∀ s n, mc s = some n → n ≤ s.length)
    (hChars : ∀ s n, mc s = some n → ∀ c ∈ s.take n, P c = true)
    (hTrans : ∀ s t n, mc t = some n → t.take n = s.take n → (mc s).isSome)
    (hRepl : ∀ c ∈ repl, P c = false) (hne : repl ≠ []) :
    ∀ fuel prev (t : List Char), t.length ≤ fuel →
      noMatch mc (reSubGo (fun _ s => mc s) repl fuel prev t) := by
  intro fuel
  induction fuel with
  | zero =>
    intro prev t ht
    have : t = [] := List.eq_nil_of_length_eq_zero (by omega)
    subst this
    exact noMatch_nil mc hPos hLen
  | succ fuel ih =>
    intro prev t ht
    cases t with
    | nil =>
      simp only [reSubGo]
      exact noMatch_nil mc hPos hLen
    | cons c rest =>
      have hrest : rest.length ≤ fuel := by
        simp only [List.length_cons] at ht; omega
      cases hm : mc (c :: rest) with
      | some k =>
        cases k with
        | zero =>
          have := hPos _ _ hm
          omega
        | succ k' =>
          simp only [reSubGo, hm]
          apply noMatch_append mc P hPos hChars repl _ hRepl
          apply ih
          have : (rest.drop k').length ≤ rest.length := by
            rw [List.length_drop]; omega
          omega
      | none =>
        simp only [reSubGo, hm]
        intro i
        cases i with
        | zero =>
          rw [List.drop_zero]
          cases hm2 : mc (c :: reSubGo (fun _ s => mc s) repl fuel (some c) rest) with
          | none => rfl
          | some n =>
            exfalso
            have hout : (c :: reSubGo (fun _ s => mc s) repl fuel (some c) rest)
                = reSubGo (fun _ s => mc s) repl (fuel + 1) prev (c :: rest) := by
              simp only [reSubGo, hm]
            have hchars := hChars _ _ hm2
            rw [hout] at hm2 hchars
            have heq := reSubGo_take_eq (fun _ s => mc s) repl P hRepl hne
              (fuel + 1) prev (c :: rest) n ht hchars
            have hsome := hTrans (c :: rest) _ n hm2 (by rw [heq])
            rw [hm] at hsome
            simp at hsome
        | succ i' =>
          rw [List.drop_succ_cons]
          exact ih (some c) rest hrest i'

/-- A substitution pass for a different pattern cannot create a match of `mc`,
provided its replacement contains no `P`-characters. -/
theorem reSubGo_preserve_noMatch (mc : List Char → Option Nat) (P : Char → Bool)
    (m' : Option Char → List Char → Option Nat) (r' : List Char)
    (hPos : ∀ s n, mc s = some n → 1 ≤ n)
    (hChars : ∀ s n, mc s = some n → ∀ c ∈ s.take n, P c = true)
    (hTrans : ∀ s t n, mc t = some n → t.take n = s.take n → (mc s).isSome)
    (hR : ∀ c ∈ r', P c = false) (hne : r' ≠ []) :
    ∀ fuel prev (v : List Char), v.length ≤ fuel → noMatch mc v →
      noMatch mc (reSubGo m' r' fuel prev v) := by
  intro fuel
  induction fuel with
  | zero =>
    intro prev v _ hv
    exact hv
  | succ fuel ih =>
    intro prev v hvlen hv
    cases v with
    | nil =>
      simp only [reSubGo]
      intro i
      rw [List.drop_nil]
      exact List.drop_nil ▸ hv 0
    | cons c rest =>
      have hrest : rest.length ≤ fuel := by
        simp only [List.length_cons] at hvlen; omega
      cases hm : m' prev (c :: rest) with
      | some k =>
        cases k with
        | zero =>
          simp only [reSubGo, hm]
          intro i
          cases i with
          | zero =>
            rw [List.drop_zero]
            cases hm2 : mc (c :: reSubGo m' r' fuel (some c) rest) with
            | none => rfl
            | some n =>
              exfalso
              have hout : (c :: reSubGo m' r' fuel (some c) rest)
                  = reSubGo m' r' (fuel + 1) prev (c :: rest) := by
                simp only [reSubGo, hm]
              have hchars := hChars _ _ hm2
              rw [hout] at hm2 hchars
              have heq := reSubGo_take_eq m' r' P hR hne
                (fuel + 1) prev (c :: rest) n hvlen hchars
              have hsome := hTrans (c :: rest) _ n hm2 (by rw [heq])
              have hv0 := hv 0
              rw [List.drop_zero] at hv0
              rw [hv0] at hsome
              simp at hsome
          | succ i' =>
            rw [List.drop_succ_cons]
            exact ih (some c) rest hrest (noMatch_drop mc _ hv 1) i'
        | succ k' =>
          simp only [reSubGo, hm]
          apply noMatch_append mc P hPos hChars r' _ hR
          apply ih
          · have : (rest.drop k').length ≤ rest.length := by
              rw [List.length_drop]; omega
            omega
          · have := noMatch_drop mc _ hv (k' + 1)
            simpa using this
      | none =>
        simp only [reSubGo, hm]
        intro i
        cases i with
        | zero =>
          rw [List.drop_zero]
          cases hm2 : mc (c :: reSubGo m' r' fuel (some c) rest) with
          | none => rfl
          | some n =>
            exfalso
            have hout : (c :: reSubGo m' r' fuel (some c) rest)
                = reSubGo m' r' (fuel + 1) prev (c :: rest) := by
              simp only [reSubGo, hm]
            have hchars := hChars _ _ hm2
            rw [hout] at hm2 hchars
            have heq := reSubGo_take_eq m' r' P hR hne
              (fuel + 1) prev (c :: rest) n hvlen hchars
            have hsome := hTrans (c :: rest) _ n hm2 (by rw [heq])
            have hv0 := hv 0
            rw [List.drop_zero] at hv0
            rw [hv0] at hsome
            simp at hsome
        | succ i' =>
          rw [List.drop_succ_cons]
          exact ih (some c) rest hrest (noMatch_drop mc _ hv 1) i'

/-- A pass whose matcher finds no match anywhere is the identity. -/
theorem reSubGo_id_of_noMatch (mc : List Char → Option Nat) (repl : List Char) :
    ∀ fuel prev (u : List Char), noMatch mc u →
      reSubGo (fun _ s => mc s) repl fuel prev u = u := by
  intro fuel
  induction fuel with
  | zero =>
    intro prev u _
    rfl
  | succ fuel ih =>
    intro prev u hu
    cases u with
    | nil => rfl
    | cons c rest =>
      have hm : mc (c :: rest) = none := by
        have := hu 0
        rwa [List.drop_zero] at this
      simp only [reSubGo, hm]
      rw [ih (some c) rest (noMatch_drop mc _ hu 1)]

/-! ### Properties of the SSN and phone matchers -/

theorem take_len_le {t s : List Char} {n : Nat} (h : t.take n = s.take n)
    (hn : n ≤ t.length) : n ≤ s.length := by
  have h1 : (t.take n).length = n := by
    rw [List.length_take]
    omega
  rw [h, List.length_take] at h1
  omega

theorem take_eq_take_mono {t s : List Char} {n m : Nat} (h : t.take n = s.take n)
    (hm : m ≤ n) : t.take m = s.take m := by
  have hc := congrArg (List.take m) h
  rwa [List.take_take, List.take_take, Nat.min_eq_left hm] at hc

theorem take_drop_transfer {t s : List Char} {a b : Nat}
    (h : t.take (a + b) = s.take (a + b)) :
    (t.drop a).take b = (s.drop a).take b := by
  have h1 : t.take a = s.take a := take_eq_take_mono h (by omega)
  rw [List.take_add, List.take_add, h1] at h
  exact List.append_cancel_left h

theorem take_eq_cons {c : Char} {t' s : List Char} {n : Nat}
    (h : (c :: t').take (n + 1) = s.take (n + 1)) :
    ∃ s', s = c :: s' ∧ t'.take n = s'.take n := by
  cases s with
  | nil => simp [List.take_succ_cons] at h
  | cons d s' =>
    rw [List.take_succ_cons, List.take_succ_cons] at h
    injection h with h1 h2
    exact ⟨s', by rw [h1], h2⟩

theorem takeDigits_spec :
    ∀ (n : Nat) (s r : List Char), takeDigits n s = some r →
      r = s.drop n ∧ n ≤ s.length ∧ ∀ c ∈ s.take n, c.isDigit = true := by
  intro n
  induction n with
  | zero =>
    intro s r h
    simp only [takeDigits, Option.some.injEq] at h
    subst h
    simp
  | succ n ih =>
    intro s r h
    cases s with
    | nil => simp [takeDigits] at h
    | cons c rest =>
      rw [takeDigits] at h
      by_cases hd : c.isDigit
      · rw [if_pos hd] at h
        obtain ⟨hr, hlen, hdig⟩ := ih rest r h
        refine ⟨by rw [List.drop_succ_cons]; exact hr, by simp; omega, ?_⟩
        intro x hx
        rw [List.take_succ_cons] at hx
        rcases List.mem_cons.mp hx with rfl | hx'
        · exact hd
        · exact hdig x hx'
      · rw [if_neg hd] at h
        exact absurd h (by simp)

theorem takeDigits_intro :
    ∀ (n : Nat) (s : List Char), n ≤ s.length →
      (∀ c ∈ s.take n, c.isDigit = true) → takeDigits n s = some (s.drop n) := by
  intro n
  induction n with
  | zero => intro s _ _; simp [takeDigits]
  | succ n ih =>
    intro s hlen hdig
    cases s with
    | nil => simp at hlen
    | cons c rest =>
      have hd : c.isDigit = true := hdig c (by rw [List.take_succ_cons]; exact List.mem_cons_self c _)
      rw [takeDigits, if_pos hd, List.drop_succ_cons]
      exact ih rest (by simp at hlen; omega)
        (fun x hx => hdig x (by rw [List.take_succ_cons]; exact List.mem_cons_of_mem c hx))

/-- Characters that can occur in a phone-pattern match. -/
def isPhoneChar (c : Char) : Bool := c.isDigit || c == '(' || c == ')' || isPhoneSep c

/-- Characters that can occur in an SSN-pattern match. -/
def isSsnChar (c : Char) : Bool := c.isDigit || c == '-'

theorem matchDone_spec (P : Char → Bool) (s : List Char) (n : Nat)
    (h : matchDone s = some n) :
    n ≤ s.length ∧ ∀ c ∈ s.take n, P c = true := by
  simp only [matchDone, Option.some.injEq] at h
  subst h
  simp

theorem matchDone_trans (s t : List Char) (n : Nat) (_ : matchDone t = some n)
    (_ : t.take n = s.take n) : (matchDone s).isSome := by
  simp [matchDone]

theorem digitsThen_spec (P : Char → Bool)
    (hdig : ∀ c, c.isDigit = true → P c = true)
    (k : Nat) (inner : List Char → Option Nat)
    (hspec : ∀ s n, inner s = some n →
      n ≤ s.length ∧ ∀ c ∈ s.take n, P c = true) :
    ∀ s n, digitsThen k inner s = some n →
      k ≤ n ∧ n ≤ s.length ∧ ∀ c ∈ s.take n, P c = true := by
  intro s n h
  rw [digitsThen] at h
  cases htd : takeDigits k s with
  | none => rw [htd] at h; exact absurd h (by simp)
  | some rest =>
    rw [htd] at h
    obtain ⟨hr, hklen, hdigits⟩ := takeDigits_spec k s rest htd
    cases hin : inner rest with
    | none => simp [hin] at h
    | some m =>
      simp [hin] at h
      obtain ⟨hmlen, hmchars⟩ := hspec rest m hin
      subst hr
      have hdl : (s.drop k).length = s.length - k := by rw [List.length_drop]
      rw [hdl] at hmlen
      refine ⟨by omega, by omega, ?_⟩
      intro c hc
      rw [← h, Nat.add_comm m k, List.take_add] at hc
      rcases List.mem_append.mp hc with hc' | hc'
      · exact hdig c (hdigits c hc')
      · exact hmchars c hc'

theorem digitsThen_pos (k : Nat) (inner : List Char → Option Nat) (s : List Char)
    (n : Nat) (h : digitsThen k inner s = some n) : k ≤ n := by
  rw [digitsThen] at h
  cases htd : takeDigits k s with
  | none => rw [htd] at h; exact absurd h (by simp)
  | some rest =>
    rw [htd] at h
    cases hin : inner rest with
    | none => simp [hin] at h
    | some m =>
      simp [hin] at h
      omega

theorem digitsThen_trans (k : Nat) (inner : List Char → Option Nat)
    (htrans : ∀ s t n, inner t = some n → t.take n = s.take n → (inner s).isSome) :
    ∀ s t n, digitsThen k inner t = some n → t.take n = s.take n →
      (digitsThen k inner s).isSome := by
  intro s t n h heq
  rw [digitsThen] at h
  cases htd : takeDigits k t with
  | none => rw [htd] at h; exact absurd h (by simp)
  | some rest =>
    rw [htd] at h
    obtain ⟨hr, hklen, hdig⟩ := takeDigits_spec k t rest htd
    cases hin : inner rest with
    | none => simp [hin] at h
    | some m =>
      simp [hin] at h
      have hn : n = k + m := by omega
      subst hn
      have htk : t.take k = s.take k := take_eq_take_mono heq (by omega)
      have hslen : k ≤ s.length := take_len_le htk hklen
      have htdS : takeDigits k s = some (s.drop k) :=
        takeDigits_intro k s hslen (fun c hc => hdig c (htk ▸ hc))
      have hdropeq : (t.drop k).take m = (s.drop k).take m := take_drop_transfer heq
      subst hr
      have := htrans (s.drop k) (t.drop k) m hin hdropeq
      rw [digitsThen, htdS]
      simpa using this

theorem dashThen_spec (P : Char → Bool) (hdash : P '-' = true)
    (inner : List Char → Option Nat)
    (hspec : ∀ s n, inner s = some n →
      n ≤ s.length ∧ ∀ c ∈ s.take n, P c = true) :
    ∀ s n, dashThen inner s = some n →
      1 ≤ n ∧ n ≤ s.length ∧ ∀ c ∈ s.take n, P c = true := by
  intro s n h
  cases s with
  | nil => simp [dashThen] at h
  | cons c rest =>
    rw [dashThen] at h
    by_cases hc : c = '-'
    · rw [if_pos hc] at h
      cases hin : inner rest with
      | none => simp [hin] at h
      | some m =>
        simp [hin] at h
        obtain ⟨hmlen, hmchars⟩ := hspec rest m hin
        refine ⟨by omega, by simp; omega, ?_⟩
        intro x hx
        rw [← h, List.take_succ_cons] at hx
        rcases List.mem_cons.mp hx with rfl | hx'
        · rw [hc]; exact hdash
        · exact hmchars x hx'
    · rw [if_neg hc] at h
      exact absurd h (by simp)

theorem dashThen_trans (inner : List Char → Option Nat)
    (htrans : ∀ s t n, inner t = some n → t.take n = s.take n → (inner s).isSome) :
    ∀ s t n, dashThen inner t = some n → t.take n = s.take n →
      (dashThen inner s).isSome := by
  intro s t n h heq
  cases t with
  | nil => simp [dashThen] at h
  | cons c rest =>
    rw [dashThen] at h
    by_cases hc : c = '-'
    · rw [if_pos hc] at h
      cases hin : inner rest with
      | none => simp [hin] at h
      | some m =>
        simp [hin] at h
        subst hc
        rw [← h] at heq
        obtain ⟨s', rfl, htail⟩ := take_eq_cons heq
        have := htrans s' rest m hin htail
        rw [dashThen, if_pos rfl]
        cases him : inner s' with
        | none => rw [him] at this; simp at this
        | some m' => simp
    · rw [if_neg hc] at h
      exact absurd h (by simp)

theorem optSepThen_spec (P : Char → Bool)
    (hsep : ∀ c, isPhoneSep c = true → P c = true)
    (inner : List Char → Option Nat)
    (hspec : ∀ s n, inner s = some n →
      n ≤ s.length ∧ ∀ c ∈ s.take n, P c = true) :
    ∀ s n, optSepThen inner s = some n →
      n ≤ s.length ∧ ∀ c ∈ s.take n, P c = true := by
  intro s n h
  cases s with
  | nil => exact hspec [] n h
  | cons c rest =>
    rw [optSepThen] at h
    by_cases hs : isPhoneSep c
    · rw [if_pos hs] at h
      cases hin : inner rest with
      | some m =>
        rw [hin] at h
        simp only [Option.some.injEq] at h
        obtain ⟨hmlen, hmchars⟩ := hspec rest m hin
        refine ⟨by simp; omega, ?_⟩
        intro x hx
        rw [← h, List.take_succ_cons] at hx
        rcases List.mem_cons.mp hx with rfl | hx'
        · exact hsep x hs
        · exact hmchars x hx'
      | none =>
        rw [hin] at h
        exact hspec _ n h
    · rw [if_neg hs] at h
      exact hspec _ n h

theorem optSepThen_pos (inner : List Char → Option Nat) (k : Nat)
    (hpos : ∀ s n, inner s = some n → k ≤ n) :
    ∀ s n, optSepThen inner s = some n → k ≤ n := by
  intro s n h
  cases s with
  | nil => exact hpos [] n h
  | cons c rest =>
    rw [optSepThen] at h
    by_cases hs : isPhoneSep c
    · rw [if_pos hs] at h
      cases hin : inner rest with
      | some m =>
        rw [hin] at h
        simp only [Option.some.injEq] at h
        have := hpos rest m hin
        omega
      | none =>
        rw [hin] at h
        exact hpos _ n h
    · rw [if_neg hs] at h
      exact hpos _ n h

theorem optSepThen_trans (inner : List Char → Option Nat)
    (htrans : ∀ s t n, inner t = some n → t.take n = s.take n → (inner s).isSome) :
    ∀ s t n, optSepThen inner t = some n → t.take n = s.take n →
      (optSepThen inner s).isSome := by
  intro s t n h heq
  have innerToGoal : ∀ u, (inner u).isSome → (optSepThen inner u).isSome := by
    intro u hu
    cases u with
    | nil => exact hu
    | cons c' u' =>
      rw [optSepThen]
      by_cases hs : isPhoneSep c'
      · rw [if_pos hs]
        cases hin : inner u' with
        | some m => simp
        | none => exact hu
      · rw [if_neg hs]
        exact hu
  cases t with
  | nil => exact innerToGoal s (htrans s [] n h heq)
  | cons c rest =>
    rw [optSepThen] at h
    by_cases hs : isPhoneSep c
    · rw [if_pos hs] at h
      cases hin : inner rest with
      | some m =>
        rw [hin] at h
        simp only [Option.some.injEq] at h
        subst h
        obtain ⟨s', rfl, htail⟩ := take_eq_cons heq
        have := htrans s' rest m hin htail
        rw [optSepThen, if_pos hs]
        cases him : inner s' with
        | none => rw [him] at this; simp at this
        | some m' => simp
      | none =>
        rw [hin] at h
        exact innerToGoal s (htrans s _ n h heq)
    · rw [if_neg hs] at h
      exact innerToGoal s (htrans s _ n h heq)

theorem optCharThen_spec (P : Char → Bool) (pc : Char) (hpc : P pc = true)
    (inner : List Char → Option Nat)
    (hspec : ∀ s n, inner s = some n →
      n ≤ s.length ∧ ∀ c ∈ s.take n, P c = true) :
    ∀ s n, optCharThen pc inner s = some n →
      n ≤ s.length ∧ ∀ c ∈ s.take n, P c = true := by
  intro s n h
  cases s with
  | nil => exact hspec [] n h
  | cons c rest =>
    rw [optCharThen] at h
    by_cases hc : c = pc
    · rw [if_pos hc] at h
      cases hin : inner rest with
      | some m =>
        rw [hin] at h
        simp only [Option.some.injEq] at h
        obtain ⟨hmlen, hmchars⟩ := hspec rest m hin
        refine ⟨by simp; omega, ?_⟩
        intro x hx
        rw [← h, List.take_succ_cons] at hx
        rcases List.mem_cons.mp hx with rfl | hx'
        · rw [hc]; exact hpc
        · exact hmchars x hx'
      | none =>
        rw [hin] at h
        exact hspec _ n h
    · rw [if_neg hc] at h
      exact hspec _ n h

theorem optCharThen_pos (pc : Char) (inner : List Char → Option Nat) (k : Nat)
    (hpos : ∀ s n, inner s = some n → k ≤ n) :
    ∀ s n, optCharThen pc inner s = some n → k ≤ n := by
  intro s n h
  cases s with
  | nil => exact hpos [] n h
  | cons c rest =>
    rw [optCharThen] at h
    by_cases hc : c = pc
    · rw [if_pos hc] at h
      cases hin : inner rest with
      | some m =>
        rw [hin] at h
        simp only [Option.some.injEq] at h
        have := hpos rest m hin
        omega
      | none =>
        rw [hin] at h
        exact hpos _ n h
    · rw [if_neg hc] at h
      exact hpos _ n h

theorem optCharThen_trans (pc : Char) (inner : List Char → Option Nat)
    (htrans : ∀ s t n, inner t = some n → t.take n = s.take n → (inner s).isSome) :
    ∀ s t n, optCharThen pc inner t = some n → t.take n = s.take n →
      (optCharThen pc inner s).isSome := by
  intro s t n h heq
  have innerToGoal : ∀ u, (inner u).isSome → (optCharThen pc inner u).isSome := by
    intro u hu
    cases u with
    | nil => exact hu
    | cons c' u' =>
      rw [optCharThen]
      by_cases hc : c' = pc
      · rw [if_pos hc]
        cases hin : inner u' with
        | some m => simp
        | none => exact hu
      · rw [if_neg hc]
        exact hu
  cases t with
  | nil => exact innerToGoal s (htrans s [] n h heq)
  | cons c rest =>
    rw [optCharThen] at h
    by_cases hc : c = pc
    · rw [if_pos hc] at h
      cases hin : inner rest with
      | some m =>
        rw [hin] at h
        simp only [Option.some.injEq] at h
        subst h
        obtain ⟨s', rfl, htail⟩ := take_eq_cons heq
        have := htrans s' rest m hin htail
        rw [optCharThen, if_pos hc]
        cases him : inner s' with
        | none => rw [him] at this; simp at this
        | some m' => simp
      | none =>
        rw [hin] at h
        exact innerToGoal s (htrans s _ n h heq)
    · rw [if_neg hc] at h
      exact innerToGoal s (htrans s _ n h heq)

theorem phone_digit_char (c : Char) (h : c.isDigit = true) : isPhoneChar c = true := by
  simp [isPhoneChar, h]

theorem phone_sep_char (c : Char) (h : isPhoneSep c = true) : isPhoneChar c = true := by
  simp [isPhoneChar, h]

theorem phoneAt_spec (s : List Char) (n : Nat) (h : phoneAt s = some n) :
    n ≤ s.length ∧ ∀ c ∈ s.take n, isPhoneChar c = true := by
  have hTail := digitsThen_spec isPhoneChar phone_digit_char 4 matchDone
    (matchDone_spec isPhoneChar)
  have hSep2 := optSepThen_spec isPhoneChar phone_sep_char phoneTail
    (fun s n h => (hTail s n h).2)
  have hMid := digitsThen_spec isPhoneChar phone_digit_char 3 phoneSep2 hSep2
  have hSep1 := optSepThen_spec isPhoneChar phone_sep_char phoneMid
    (fun s n h => (hMid s n h).2)
  have hParen := optCharThen_spec isPhoneChar ')' (by decide) phoneSep1 hSep1
  have hBody := digitsThen_spec isPhoneChar phone_digit_char 3 phoneParen hParen
  exact optCharThen_spec isPhoneChar '(' (by decide) phoneBody
    (fun s n h => (hBody s n h).2) s n h

theorem phoneAt_pos (s : List Char) (n : Nat) (h : phoneAt s = some n) : 1 ≤ n := by
  have hBody : ∀ s n, phoneBody s = some n → 1 ≤ n := by
    intro s n h
    have := digitsThen_pos 3 phoneParen s n h
    omega
  exact optCharThen_pos '(' phoneBody 1 hBody s n h

theorem phoneAt_trans (s t : List Char) (n : Nat) (h : phoneAt t = some n)
    (heq : t.take n = s.take n) : (phoneAt s).isSome := by
  have hTailT := digitsThen_trans 4 matchDone matchDone_trans
  have hSep2T := optSepThen_trans phoneTail hTailT
  have hMidT := digitsThen_trans 3 phoneSep2 hSep2T
  have hSep1T := optSepThen_trans phoneMid hMidT
  have hParenT := optCharThen_trans ')' phoneSep1 hSep1T
  have hBodyT := digitsThen_trans 3 phoneParen hParenT
  exact optCharThen_trans '(' phoneBody hBodyT s t n h heq

theorem phoneAt_len (s : List Char) (n : Nat) (h : phoneAt s = some n) :
    n ≤ s.length :=
  (phoneAt_spec s n h).1

theorem ssn_digit_char (c : Char) (h : c.isDigit = true) : isSsnChar c = true := by
  simp [isSsnChar, h]

theorem ssnAt_spec (s : List Char) (n : Nat) (h : ssnAt s = some n) :
    1 ≤ n ∧ n ≤ s.length ∧ ∀ c ∈ s.take n, isSsnChar c = true := by
  have h4 := digitsThen_spec isSsnChar ssn_digit_char 4 matchDone
    (matchDone_spec isSsnChar)
  have hd2 := dashThen_spec isSsnChar (by decide) _ (fun s n h => (h4 s n h).2)
  have h2 := digitsThen_spec isSsnChar ssn_digit_char 2 _
    (fun s n h => (hd2 s n h).2)
  have hd1 := dashThen_spec isSsnChar (by decide) _ (fun s n h => (h2 s n h).2)
  have h3 := digitsThen_spec isSsnChar ssn_digit_char 3 _
    (fun s n h => (hd1 s n h).2)
  obtain ⟨hk, hlen, hchars⟩ := h3 s n h
  exact ⟨by omega, hlen, hchars⟩

theorem ssnAt_trans (s t : List Char) (n : Nat) (h : ssnAt t = some n)
    (heq : t.take n = s.take n) : (ssnAt s).isSome := by
  have h4 := digitsThen_trans 4 matchDone matchDone_trans
  have hd2 := dashThen_trans _ h4
  have h2 := digitsThen_trans 2 _ hd2
  have hd1 := dashThen_trans _ h2
  exact digitsThen_trans 3 _ hd1 s t n h heq

theorem ssnAt_pos (s : List Char) (n : Nat) (h : ssnAt s = some n) : 1 ≤ n :=
  (ssnAt_spec s n h).1

theorem ssnAt_len (s : List Char) (n : Nat) (h : ssnAt s = some n) : n ≤ s.length :=
  (ssnAt_spec s n h).2.1

/-- Claim C8: re-applying the Redactor's SSN and phone substitution passes to
the Redactor's own output finds no new matches and leaves the text unchanged
with respect to those categories: for every input text, running the SSN pass
(or the phone pass) a second time on `redact_phi`'s output returns the output
unchanged. -/
theorem redact_ssn_phone_idempotent (t : List Char) :
    reSub (fun _ s => ssnAt s) ("[SSN]".data) (redact_phi t) = redact_phi t ∧
    reSub (fun _ s => phoneAt s) ("[PHONE_NUMBER]".data) (redact_phi t) = redact_phi t := by
  have hphoneChars : ∀ s n, phoneAt s = some n → ∀ c ∈ s.take n, isPhoneChar c = true :=
    fun s n h => (phoneAt_spec s n h).2
  have hssnChars : ∀ s n, ssnAt s = some n → ∀ c ∈ s.take n, isSsnChar c = true :=
    fun s n h => (ssnAt_spec s n h).2.2
  -- the replacement strings contain no characters matchable by either pattern
  have hPH_phone : ∀ c ∈ ("[PHONE_NUMBER]".data), isPhoneChar c = false := by decide
  have hS_phone : ∀ c ∈ ("[SSN]".data), isPhoneChar c = false := by decide
  have hA_phone : ∀ c ∈ ("[ADDRESS]".data), isPhoneChar c = false := by decide
  have hS_ssn : ∀ c ∈ ("[SSN]".data), isSsnChar c = false := by decide
  have hA_ssn : ∀ c ∈ ("[ADDRESS]".data), isSsnChar c = false := by decide
  -- name the intermediate pass outputs
  obtain ⟨d2, hd2⟩ : ∃ u, reSub dateAt ("[DATE]".data)
      (reSub nameAt ("[PATIENT_NAME]".data) t) = u := ⟨_, rfl⟩
  obtain ⟨p3, hp3⟩ : ∃ u, reSub (fun _ s => phoneAt s) ("[PHONE_NUMBER]".data) d2 = u :=
    ⟨_, rfl⟩
  obtain ⟨s4, hs4⟩ : ∃ u, reSub (fun _ s => ssnAt s) ("[SSN]".data) p3 = u := ⟨_, rfl⟩
  have hphi : redact_phi t = reSub addrAt ("[ADDRESS]".data) s4 := by
    rw [← hs4, ← hp3, ← hd2]
    rfl
  -- after the phone pass no phone match remains …
  have hPh3 : noMatch phoneAt p3 := by
    rw [← hp3]
    exact reSubGo_self_noMatch phoneAt isPhoneChar ("[PHONE_NUMBER]".data)
      phoneAt_pos phoneAt_len hphoneChars phoneAt_trans hPH_phone (by decide)
      d2.length none d2 (le_refl _)
  -- … and the SSN and address passes cannot create one
  have hPh4 : noMatch phoneAt s4 := by
    rw [← hs4]
    exact reSubGo_preserve_noMatch phoneAt isPhoneChar (fun _ s => ssnAt s)
      ("[SSN]".data) phoneAt_pos hphoneChars phoneAt_trans hS_phone (by decide)
      p3.length none p3 (le_refl _) hPh3
  have hPh5 : noMatch phoneAt (redact_phi t) := by
    rw [hphi]
    exact reSubGo_preserve_noMatch phoneAt isPhoneChar addrAt
      ("[ADDRESS]".data) phoneAt_pos hphoneChars phoneAt_trans hA_phone (by decide)
      s4.length none s4 (le_refl _) hPh4
  -- after the SSN pass no SSN match remains, and the address pass keeps it so
  have hSs4 : noMatch ssnAt s4 := by
    rw [← hs4]
    exact reSubGo_self_noMatch ssnAt isSsnChar ("[SSN]".data)
      ssnAt_pos ssnAt_len hssnChars ssnAt_trans hS_ssn (by decide)
      p3.length none p3 (le_refl _)
  have hSs5 : noMatch ssnAt (redact_phi t) := by
    rw [hphi]
    exact reSubGo_preserve_noMatch ssnAt isSsnChar addrAt
      ("[ADDRESS]".data) ssnAt_pos hssnChars ssnAt_trans hA_ssn (by decide)
      s4.length none s4 (le_refl _) hSs4
  exact ⟨reSubGo_id_of_noMatch ssnAt ("[SSN]".data)
      (redact_phi t).length none (redact_phi t) hSs5,
    reSubGo_id_of_noMatch phoneAt ("[PHONE_NUMBER]".data)
      (redact_phi t).length none (redact_phi t) hPh5⟩

/-! ## Deterministic chunk identifiers (C7)

`local_processor.py` line 207 builds each chunk id as
`f"{os.path.splitext(blob_name)[0].replace(' ', '_')}_chunk_{i:03d}"`.
-/

/-- Index of the last occurrence of a character in a list. -/
def lastIndexOf (c : Char) : List Char → Option Nat
  | [] => none
  | x :: xs =>
    match lastIndexOf c xs with
    | some i => some (i + 1)
    | none => if x = c then some 0 else none

/-- `os.path.splitext(p)[0]` (POSIX): the name up to the last dot, provided
the basename (the part after the last slash) contains a non-dot character
before that dot; otherwise the whole name (so a dotfile such as ".bashrc"
keeps its full name). -/
def splitextStem (p : List Char) : List Char :=
  match lastIndexOf '.' p with
  | none => p
  | some d =>
    let b := match lastIndexOf '/' p with
      | none => 0
      | some sidx => sidx + 1
    if (List.range' b (d - b)).any (fun f => !(p[f]? == some '.')) then p.take d
    else p

/-- Python `str.replace(' ', '_')` for the single-character arguments used
here: replace every space by an underscore. -/
def replaceSpaces (l : List Char) : List Char :=
  l.map (fun c => if c = ' ' then '_' else c)

/-- Python `f"{i:03d}"` for a non-negative integer: the decimal digits,
left-padded with zeros to width 3. -/
def zeroPad3 (i : Nat) : List Char :=
  List.replicate (3 - (Nat.toDigits 10 i).length) '0' ++ Nat.toDigits 10 i

/-- The chunk identifier generated for chunk `i` of the document `blobName`. -/
def chunk_id (blobName : List Char) (i : Nat) : List Char :=
  replaceSpaces (splitextStem blobName) ++ "_chunk_".data ++ zeroPad3 i

theorem lastIndexOf_append (c : Char) (l r : List Char) :
    lastIndexOf c (l ++ r) = match lastIndexOf c r with
      | some i => some (l.length + i)
      | none => lastIndexOf c l := by
  induction l with
  | nil =>
    simp only [List.nil_append, List.length_nil]
    cases lastIndexOf c r with
    | none => rfl
    | some i => simp
  | cons x xs ih =>
    rw [List.cons_append, lastIndexOf, ih]
    cases h : lastIndexOf c r with
    | none => rfl
    | some i =>
      simp only [List.length_cons]
      cases h2 : lastIndexOf c xs with
      | none => simp [Nat.add_comm, Nat.add_assoc, Nat.add_left_comm]
      | some j => simp [Nat.add_comm, Nat.add_assoc, Nat.add_left_comm]

theorem lastIndexOf_of_not_mem (c : Char) (l : List Char) (h : c ∉ l) :
    lastIndexOf c l = none := by
  induction l with
  | nil => rfl
  | cons x xs ih =>
    rw [lastIndexOf, ih (fun hm => h (List.mem_cons_of_mem x hm))]
    rw [if_neg (by intro he; subst he; exact h (List.mem_cons_self x xs))]

theorem splitextStem_of_ext (stem ext : List Char) (_hne : ext ≠ [])
    (hdot : '.' ∉ ext) (hslashE : '/' ∉ ext) (hslashS : '/' ∉ stem)
    (hnondot : ∃ c ∈ stem, c ≠ '.') :
    splitextStem (stem ++ '.' :: ext) = stem := by
  have hlioDot : lastIndexOf '.' (stem ++ '.' :: ext) = some stem.length := by
    rw [lastIndexOf_append]
    have h1 : lastIndexOf '.' ('.' :: ext) = some 0 := by
      rw [lastIndexOf, lastIndexOf_of_not_mem '.' ext hdot, if_pos rfl]
    rw [h1]
    rfl
  have hlioSlash : lastIndexOf '/' (stem ++ '.' :: ext) = none := by
    rw [lastIndexOf_append]
    have h1 : lastIndexOf '/' ('.' :: ext) = none := by
      rw [lastIndexOf, lastIndexOf_of_not_mem '/' ext hslashE]
      rw [if_neg (by decide)]
    rw [h1]
    exact lastIndexOf_of_not_mem '/' stem hslashS
  rw [splitextStem, hlioDot]
  simp only [hlioSlash]
  obtain ⟨c, hcmem, hcne⟩ := hnondot
  obtain ⟨f, hf, hfc⟩ := List.mem_iff_getElem.mp hcmem
  have hany : (List.range' 0 (stem.length - 0)).any
      (fun f => !((stem ++ '.' :: ext)[f]? == some '.')) = true := by
    rw [List.any_eq_true]
    refine ⟨f, ?_, ?_⟩
    · rw [List.mem_range'_1]
      omega
    · have hgf : (stem ++ '.' :: ext)[f]? = some c := by
        rw [List.getElem?_append_left hf, List.getElem?_eq_getElem hf, hfc]
      rw [hgf]
      simp [hcne]
  rw [if_pos hany]
  exact List.take_left stem ('.' :: ext)

/-- Claim C7: for every document name of the usual form `stem.ext` (non-empty
extension with no dot or slash, no slash in the stem, stem not all dots) and
every chunk index, the generated `chunk_id` is exactly the document name
without its extension, spaces replaced by underscores, followed by "_chunk_"
and the index zero-padded to 3 digits; and the id is deterministic — the
same name and index always yield the same id. -/
theorem chunk_id_spec :
    (∀ (stem ext : List Char) (i : Nat),
      ext ≠ [] → '.' ∉ ext → '/' ∉ ext → '/' ∉ stem → (∃ c ∈ stem, c ≠ '.') →
      chunk_id (stem ++ '.' :: ext) i
        = replaceSpaces stem ++ "_chunk_".data ++ zeroPad3 i) ∧
    (∀ (name₁ name₂ : List Char) (i₁ i₂ : Nat), name₁ = name₂ → i₁ = i₂ →
      chunk_id name₁ i₁ = chunk_id name₂ i₂) := by
  constructor
  · intro stem ext i hne hdot hslashE hslashS hnondot
    rw [chunk_id, splitextStem_of_ext stem ext hne hdot hslashE hslashS hnondot]
  · intro name₁ name₂ i₁ i₂ h1 h2
    rw [h1, h2]

/-- Claim C7 witness: the id of chunk 7 of "Report 1.pdf" is
"Report_1_chunk_007". -/
theorem chunk_id_spec_witness :
    chunk_id ("Report 1.pdf".data) 7 = "Report_1_chunk_007".data := by
  have h := chunk_id_spec.1 ("Report 1".data) ("pdf".data) 7 (by decide) (by decide)
    (by decide) (by decide) ⟨'R', by decide, by decide⟩
  have he : ("Report 1.pdf".data) = ("Report 1".data) ++ '.' :: ("pdf".data) := by
    decide
  rw [he, h]
  decide

/-! ## The Document Processor pipeline (local_processor.py)

External calls (blob download, Document Intelligence analysis, the two
language-service calls, the upload) are modelled as oracles: an `Except Unit`
result stands for "returned normally" / "raised an exception".
-/

/-- Python `str.strip()`: remove leading and trailing whitespace. -/
def pyStrip (l : List Char) : List Char :=
  ((l.dropWhile isPySpace).reverse.dropWhile isPySpace).reverse

/-- One published chunk record (lines 206–214; the free-form langchain
`metadata` field is the empty object for every chunk and is omitted here). -/
structure ChunkData where
  chunk_id : List Char
  source_document : List Char
  original_chunk_content : List Char
  redacted_chunk_content : List Char
  key_phrases : List (List Char)
  entities : List (List Char × List Char)
deriving DecidableEq

/-- Annotation of one chunk (lines 180–203): when the stripped redacted text
is longer than 10 characters and the language client is initialized, key
phrases and then entities are requested from the external service on the
redacted text; an exception anywhere in the `try` block is caught, keeping
whatever had been assigned before it (so a failing entity call keeps the
already-extracted key phrases). -/
def annotateChunk (kpOracle : List Char → Except Unit (List (List Char)))
    (entOracle : List Char → Except Unit (List (List Char × List Char)))
    (clientUp : Bool) (redacted : List Char) :
    List (List Char) × List (List Char × List Char) :=
  if 10 < (pyStrip redacted).length ∧ clientUp then
    match kpOracle redacted with
    | .error _ => ([], [])
    | .ok kps =>
      match entOracle redacted with
      | .error _ => (kps, [])
      | .ok ents => (kps, ents)
  else ([], [])

/-- The record built for chunk `i` with content `content` (lines 174–215). -/
def mkChunkData (kpOracle : List Char → Except Unit (List (List Char)))
    (entOracle : List Char → Except Unit (List (List Char × List Char)))
    (clientUp : Bool) (blobName content : List Char) (i : Nat) : ChunkData :=
  { chunk_id := chunk_id blobName i
    source_document := blobName
    original_chunk_content := content
    redacted_chunk_content := redact_phi content
    key_phrases := (annotateChunk kpOracle entOracle clientUp (redact_phi content)).1
    entities := (annotateChunk kpOracle entOracle clientUp (redact_phi content)).2 }

/-- All records of one document: each chunk is processed independently, in
order, with its zero-based sequence index. -/
def buildRecords (kpOracle : List Char → Except Unit (List (List Char)))
    (entOracle : List Char → Except Unit (List (List Char × List Char)))
    (clientUp : Bool) (blobName md : List Char) : List ChunkData :=
  (chunkTexts 490 88 md).enum.map
    (fun p => mkChunkData kpOracle entOracle clientUp blobName p.2 p.1)

/-- One input document together with the outcomes of the external calls its
processing triggers. -/
structure DocInput where
  name : List Char
  fetch : Except Unit Unit
  analyze : Except Unit (Option (List Char))
  upload : Except Unit Unit

inductive DocResult where
  | failed
  | skippedEmpty
  | published (records : List ChunkData)
deriving DecidableEq

/-- `blob_name.lower().endswith(".pdf")` (line 117). -/
def isPdfName (n : List Char) : Bool :=
  List.isSuffixOf (".pdf".data) (n.map Char.toLower)

/-- The published artifact name (line 220). -/
def outputName (blobName : List Char) : List Char :=
  replaceSpaces (splitextStem blobName) ++ "_chunks.json".data

/-- Processing of a single PDF document (lines 126–235): download, analyze,
skip when the extracted text is empty or whitespace-only (lines 150–153),
otherwise chunk, redact, annotate and upload; an exception in download,
analysis or upload fails the document. -/
def processOne (kpOracle : List Char → Except Unit (List (List Char)))
    (entOracle : List Char → Except Unit (List (List Char × List Char)))
    (clientUp : Bool) (d : DocInput) : DocResult :=
  match d.fetch with
  | .error _ => .failed
  | .ok _ =>
    match d.analyze with
    | .error _ => .failed
    | .ok contentOpt =>
      let md := match contentOpt with
        | some c => if c.isEmpty then [] else c
        | none => []
      if (pyStrip md).isEmpty then .skippedEmpty
      else
        match d.upload with
        | .error _ => .failed
        | .ok _ => .published (buildRecords kpOracle entOracle clientUp d.name md)

/-- The batch loop (lines 106–242): non-PDF blobs are skipped without being
counted; each PDF increments `document_count`; only a fully processed and
uploaded document increments `processed_successfully_count` and publishes an
artifact.  Returns (document_count, processed_successfully_count, published
artifacts in order). -/
def runBatch (kpOracle : List Char → Except Unit (List (List Char)))
    (entOracle : List Char → Except Unit (List (List Char × List Char)))
    (clientUp : Bool) : List DocInput → Nat × Nat × List (List Char × List ChunkData)
  | [] => (0, 0, [])
  | d :: rest =>
    let acc := runBatch kpOracle entOracle clientUp rest
    if isPdfName d.name then
      match processOne kpOracle entOracle clientUp d with
      | .published r => (acc.1 + 1, acc.2.1 + 1, (outputName d.name, r) :: acc.2.2)
      | .skippedEmpty => (acc.1 + 1, acc.2.1, acc.2.2)
      | .failed => (acc.1 + 1, acc.2.1, acc.2.2)
    else acc

/-! ## The Indexer (medsearch.py) -/

/-- JSON values (numeric payloads abstracted as integers; no claim depends on
fractional values). -/
inductive Json where
  | null : Json
  | bool (b : Bool) : Json
  | num (n : Int) : Json
  | str (s : List Char) : Json
  | arr (l : List Json) : Json
  | obj (kvs : List (List Char × Json)) : Json

/-- Python `dict.get` on an object's key-value list (keys unique in real
JSON objects; the first binding wins). -/
def jlookup (kvs : List (List Char × Json)) (k : List Char) : Option Json :=
  match kvs with
  | [] => none
  | (k', v) :: rest => if k' = k then some v else jlookup rest k

/-- Python truthiness of a JSON value (`if not chunks`, `if entity`, …). -/
def isFalsy : Json → Bool
  | .null => true
  | .bool b => !b
  | .num n => n == 0
  | .str s => s.isEmpty
  | .arr l => l.isEmpty
  | .obj kvs => kvs.isEmpty

/-- Python `str.replace(old, "")` (used as `.replace('.pdf', '')`): remove
every non-overlapping occurrence of `pat`, scanning left to right.  As in
`reSubGo`, the structural fuel decreases by one per step while at least one
character is consumed, so `fuel = l.length` always suffices. -/
def removeSubGo (pat : List Char) : Nat → List Char → List Char
  | 0, l => l
  | _ + 1, [] => []
  | fuel + 1, c :: rest =>
    if pat ≠ [] ∧ startsWith pat (c :: rest) then
      removeSubGo pat fuel ((c :: rest).drop pat.length)
    else c :: removeSubGo pat fuel rest

def removeSub (pat l : List Char) : List Char := removeSubGo pat l.length l

/-- `document_name.replace(' ', '_').replace('/', '_')` (line 97). -/
def sanitizeIdName (l : List Char) : List Char :=
  l.map (fun c => if c = ' ' then '_' else if c = '/' then '_' else c)

/-- One prepared search-index entry (lines 101–107).  The Python id is the
f-string `f"{sanitized}-{page}-{i}"`; its three interpolated components are
kept separately here rather than rendered to one string. -/
structure SearchDoc where
  idDoc : List Char
  idPage : Json
  idPos : Nat
  document_name : List Char
  page_number : Json
  chunk_text : Json
  medical_entities : List Json

/-- Python iteration `for x in v`: lists yield their elements, strings their
characters (as one-character strings), dicts their keys; other values raise
`TypeError`. -/
def iterJson : Json → Except Unit (List Json)
  | .arr l => .ok l
  | .str s => .ok (s.map (fun c => .str [c]))
  | .obj kvs => .ok (kvs.map (fun kv => .str kv.1))
  | _ => .error ()

/-- `[entity.get("text") for entity in … if entity and entity.get("text")]`
(line 99): falsy entities are skipped without any attribute access; a truthy
non-dict entity raises (`.get` on it); otherwise the truthy `text` values are
collected. -/
def entityTexts : List Json → Except Unit (List Json)
  | [] => .ok []
  | e :: rest =>
    if isFalsy e then entityTexts rest
    else
      match e with
      | .obj kvs =>
        (entityTexts rest).map (fun ts =>
          if isFalsy ((jlookup kvs ("text".data)).getD .null) then ts
          else (jlookup kvs ("text".data)).getD .null :: ts)
      | _ => .error ()

/-- The per-chunk loop of lines 96–108: each chunk must be a dict; its
`entities` value (default `[]`) is iterated; the search document is appended
only after all of this succeeded, so an exception keeps the documents
prepared from the earlier chunks (the boolean records whether the loop ran
to completion). -/
def buildEntries (docName : List Char) : Nat → List Json → List SearchDoc × Bool
  | _, [] => ([], true)
  | i, c :: rest =>
    match c with
    | .obj kvs =>
      match iterJson ((jlookup kvs ("entities".data)).getD (.arr [])) with
      | .error _ => ([], false)
      | .ok ents =>
        match entityTexts ents with
        | .error _ => ([], false)
        | .ok texts =>
          let doc : SearchDoc :=
            { idDoc := sanitizeIdName docName
              idPage := (jlookup kvs ("page".data)).getD (.num 0)
              idPos := i
              document_name := docName
              page_number := (jlookup kvs ("page".data)).getD (.num 0)
              chunk_text := (jlookup kvs ("text".data)).getD (.str [])
              medical_entities := texts }
          ((buildEntries docName (i + 1) rest).1.cons doc,
            (buildEntries docName (i + 1) rest).2)
    | _ => ([], false)

/-- The outcome of processing one parsed artifact (lines 88–111): entries
prepared normally, the "No 'chunks' …" warning path, or an exception caught
by the per-blob handler of lines 116–118 (carrying the entries already
appended before it was raised). -/
inductive BlobOutcome where
  | prepared (entries : List SearchDoc)
  | warnedNoChunks
  | errored (partialEntries : List SearchDoc)

def entriesOf : BlobOutcome → List SearchDoc
  | .prepared es => es
  | .warnedNoChunks => []
  | .errored es => es

/-- Processing of one parsed artifact (lines 88–111).  `json_data.get` on a
top-level value that is not an object raises `AttributeError`;
`.replace('.pdf', '')` on a non-string `document_name` raises; a missing or
falsy `chunks` value takes the warning path; otherwise the chunks are
iterated and the entries built. -/
def processBlob (j : Json) : BlobOutcome :=
  match j with
  | .obj kvs =>
    match (jlookup kvs ("document_name".data)).getD (.str ("unknown".data)) with
    | .str dn =>
      if isFalsy ((jlookup kvs ("chunks".data)).getD (.arr [])) then .warnedNoChunks
      else
        match iterJson ((jlookup kvs ("chunks".data)).getD (.arr [])) with
        | .error _ => .errored []
        | .ok cs =>
          match buildEntries (removeSub (".pdf".data) dn) 0 cs with
          | (entries, true) => .prepared entries
          | (entries, false) => .errored entries
    | _ => .errored []
  | _ => .errored []

/-- The whole preparation phase of `ingest_documents_to_search` over the
parsed artifacts: each blob contributes the entries it reached;
warning-skipped and exception-skipped blobs contribute none and the loop
continues. -/
def prepareAll (blobs : List Json) : List SearchDoc :=
  blobs.flatMap (fun j => entriesOf (processBlob j))

/-- The JSON the Document Processor publishes for one chunk (lines 206–214
and 226: `json.dumps(processed_chunks_data)` of the listed fields). -/
def chunkToJson (c : ChunkData) : Json :=
  .obj [("chunk_id".data, .str c.chunk_id),
        ("source_document".data, .str c.source_document),
        ("original_chunk_content".data, .str c.original_chunk_content),
        ("redacted_chunk_content".data, .str c.redacted_chunk_content),
        ("key_phrases".data, .arr (c.key_phrases.map Json.str)),
        ("entities".data, .arr (c.entities.map (fun e =>
          Json.obj [("text".data, .str e.1), ("category".data, .str e.2)]))),
        ("metadata".data, .obj [])]

/-- The top-level JSON value of every artifact the Document Processor
publishes: a flat array of chunk objects. -/
def publishArtifact (cs : List ChunkData) : Json := .arr (cs.map chunkToJson)

/-- Claim C1 counterexample: a real published artifact — a flat JSON array of
chunk objects — is not skipped via the "no chunks found" warning path: the
`json_data.get` call raises `AttributeError` on the list and the artifact is
skipped by the generic per-blob exception handler instead. -/
theorem indexer_real_artifact_cex :
    processBlob (publishArtifact
      [⟨"a_chunk_000".data, "a.pdf".data, "x".data, "x".data, [], []⟩])
      = .errored [] ∧
    BlobOutcome.errored [] ≠ BlobOutcome.warnedNoChunks :=
  ⟨rfl, fun h => BlobOutcome.noConfusion h⟩

/-- Claim C1 (amended): an artifact whose top-level JSON value is an object
with no `chunks` key (and whose `document_name`, when present, is a string)
is skipped via the "no chunks found" warning with zero prepared entries;
every artifact the Document Processor actually publishes has a top-level
array instead, raises `AttributeError` inside the loop, and is skipped by the
generic per-blob exception handler with zero prepared entries — not via the
warning; in both cases the artifact contributes nothing and the rest of the
batch is processed unaffected. -/
theorem indexer_missing_chunks (kvs : List (List Char × Json))
    (hchunks : jlookup kvs ("chunks".data) = none)
    (hdn : ∃ s, (jlookup kvs ("document_name".data)).getD (.str ("unknown".data))
      = .str s) :
    processBlob (.obj kvs) = .warnedNoChunks ∧
    entriesOf (processBlob (.obj kvs)) = [] ∧
    (∀ cs : List ChunkData, processBlob (publishArtifact cs) = .errored [] ∧
      entriesOf (processBlob (publishArtifact cs)) = []) ∧
    (∀ (pre post : List Json) (j : Json), entriesOf (processBlob j) = [] →
      prepareAll (pre ++ j :: post) = prepareAll pre ++ prepareAll post) := by
  obtain ⟨s, hs⟩ := hdn
  have h1 : processBlob (.obj kvs) = .warnedNoChunks := by
    rw [processBlob, hs, hchunks]
    simp [isFalsy]
  refine ⟨h1, by rw [h1]; rfl, ?_, ?_⟩
  · intro cs
    exact ⟨rfl, rfl⟩
  · intro pre post j hj
    rw [prepareAll, List.flatMap_append, List.flatMap_cons, hj]
    simp [prepareAll]

/-- Claim C1 witness: a concrete object artifact with a string
`document_name` and no `chunks` key takes the warning path. -/
theorem indexer_missing_chunks_witness :
    processBlob (.obj [("document_name".data, .str ("a.pdf".data))])
      = .warnedNoChunks :=
  (indexer_missing_chunks [("document_name".data, .str ("a.pdf".data))]
    rfl ⟨"a.pdf".data, rfl⟩).1

/-- The Indexer's blob-service client construction (medsearch.py lines
36–39): the configured connection string is only checked for truthiness, and
the argument passed to `BlobServiceClient.from_connection_string` is the
string literal "CONNECTION_STRING", not the configured value. -/
def indexerBlobClientArg (env : Option (List Char)) : Except Unit (List Char) :=
  if (env.getD []).isEmpty then .error () else .ok ("CONNECTION_STRING".data)

/-- Claim C10: the Indexer builds its blob client from the constant literal
"CONNECTION_STRING" rather than the configured value, so for any two
non-empty configured connection strings its initialization behaves
identically — the constructor argument is always the literal. -/
theorem indexer_conn_literal (e₁ e₂ : List Char) (h₁ : e₁ ≠ []) (h₂ : e₂ ≠ []) :
    indexerBlobClientArg (some e₁) = indexerBlobClientArg (some e₂) ∧
    indexerBlobClientArg (some e₁) = .ok ("CONNECTION_STRING".data) := by
  have hne : ∀ e : List Char, e ≠ [] →
      indexerBlobClientArg (some e) = .ok ("CONNECTION_STRING".data) := by
    intro e he
    rw [indexerBlobClientArg, Option.getD_some, if_neg (by simpa using he)]
  rw [hne e₁ h₁, hne e₂ h₂]
  exact ⟨rfl, rfl⟩

/-- Claim C10 witness: two distinct concrete configured connection strings
give the identical initialization outcome. -/
theorem indexer_conn_literal_witness :
    indexerBlobClientArg (some ("A".data)) = indexerBlobClientArg (some ("B".data)) :=
  (indexer_conn_literal ("A".data) ("B".data) (by decide) (by decide)).1

/-- Claim C6: a document whose extracted text is empty or whitespace-only
takes the skip path — which is distinct from the failure path — publishes no
artifact, and in the batch summary is counted as attempted but not as
successfully processed. -/
theorem empty_text_skipped (kpO : List Char → Except Unit (List (List Char)))
    (entO : List Char → Except Unit (List (List Char × List Char)))
    (clientUp : Bool) (d : DocInput) (rest : List DocInput)
    (co : Option (List Char))
    (hf : d.fetch = .ok ()) (ha : d.analyze = .ok co)
    (hws : pyStrip (co.getD []) = []) (hpdf : isPdfName d.name = true) :
    processOne kpO entO clientUp d = .skippedEmpty ∧
    DocResult.skippedEmpty ≠ DocResult.failed ∧
    runBatch kpO entO clientUp (d :: rest)
      = ((runBatch kpO entO clientUp rest).1 + 1,
         (runBatch kpO entO clientUp rest).2.1,
         (runBatch kpO entO clientUp rest).2.2) := by
  have h1 : processOne kpO entO clientUp d = .skippedEmpty := by
    rw [processOne, hf, ha]
    cases co with
    | none =>
      simp only [Option.getD_none] at hws
      simp [hws]
    | some c =>
      simp only [Option.getD_some] at hws
      by_cases hc : c.isEmpty
      · have hnil : pyStrip ([] : List Char) = [] := rfl
        simp [hc, hnil]
      · simp [hc, hws]
  refine ⟨h1, fun h => DocResult.noConfusion h, ?_⟩
  rw [runBatch]
  rw [if_pos hpdf, h1]

/-- Claim C6 witness: a concrete PDF document whose analysis returns
whitespace-only text is skipped. -/
theorem empty_text_skipped_witness :
    processOne (fun _ => .error ()) (fun _ => .error ()) true
      ⟨"a.pdf".data, .ok (), .ok (some ("  ".data)), .ok ()⟩ = .skippedEmpty :=
  (empty_text_skipped (fun _ => .error ()) (fun _ => .error ()) true
    ⟨"a.pdf".data, .ok (), .ok (some ("  ".data)), .ok ()⟩ []
    (some ("  ".data)) rfl rfl (by decide) (by decide)).1

/-- Claim C5 counterexample: a chunk whose key-phrase call succeeds with a
non-empty result and whose entity call then raises is published with the
already-extracted key phrases — not with `key_phrases = []` as the claim
states for a chunk whose annotation raises. -/
theorem annotation_partial_cex :
    (buildRecords (fun _ => .ok [("x".data)]) (fun _ => .error ()) true
        ("a.pdf".data) ("abcdefghijkl".data)).map ChunkData.key_phrases
      = [[("x".data)]] ∧ ([("x".data)] : List (List Char)) ≠ [] := by
  constructor
  · decide
  · decide

/-- Claim C5 (amended): a chunk whose key-phrase call raises is published
with `key_phrases = []` and `entities = []`; if only the entity call raises,
the already-extracted key phrases are kept and `entities = []`.  In every
case the chunk still appears in the artifact (one record per chunk, in
order), and a failure for one chunk cannot affect its siblings: each record
depends only on the oracle answers for its own redacted text. -/
theorem annotation_failure_isolated
    (kpO kpO' : List Char → Except Unit (List (List Char)))
    (entO entO' : List Char → Except Unit (List (List Char × List Char)))
    (clientUp : Bool) (name md r : List Char) :
    (kpO r = .error () → annotateChunk kpO entO true r = ([], [])) ∧
    (∀ kps, 10 < (pyStrip r).length → kpO r = .ok kps → entO r = .error () →
      annotateChunk kpO entO true r = (kps, [])) ∧
    (buildRecords kpO entO clientUp name md).length
      = (chunkTexts 490 88 md).length ∧
    (∀ i : Nat,
      (∀ content, (chunkTexts 490 88 md)[i]? = some content →
        kpO (redact_phi content) = kpO' (redact_phi content) ∧
        entO (redact_phi content) = entO' (redact_phi content)) →
      (buildRecords kpO entO clientUp name md)[i]?
        = (buildRecords kpO' entO' clientUp name md)[i]?) := by
  refine ⟨?_, ?_, ?_, ?_⟩
  · intro hkp
    rw [annotateChunk]
    by_cases hcond : 10 < (pyStrip r).length ∧ (true : Bool)
    · rw [if_pos hcond, hkp]
    · rw [if_neg hcond]
  · intro kps h10 hkp hent
    rw [annotateChunk, if_pos ⟨h10, rfl⟩, hkp, hent]
  · rw [buildRecords, List.length_map, List.enum_length]
  · intro i hagree
    rw [buildRecords, buildRecords, List.getElem?_map, List.getElem?_map]
    cases hc : (chunkTexts 490 88 md)[i]? with
    | none =>
      simp [List.getElem?_enum, hc]
    | some content =>
      rw [List.getElem?_enum, hc]
      have hann : annotateChunk kpO entO clientUp (redact_phi content)
          = annotateChunk kpO' entO' clientUp (redact_phi content) := by
        rw [annotateChunk, annotateChunk, (hagree content hc).1, (hagree content hc).2]
      simp [mkChunkData, hann]

/-- Claim C5 witness: the amended statement applied at a concrete chunk whose
key-phrase call raises. -/
theorem annotation_failure_isolated_witness :
    annotateChunk (fun _ => .error ()) (fun _ => .ok []) true
      ("abcdefghijkl".data) = ([], []) :=
  (annotation_failure_isolated (fun _ => .error ()) (fun _ => .error ())
    (fun _ => .ok []) (fun _ => .ok []) true [] [] ("abcdefghijkl".data)).1 rfl

end ChunkingAgent
